import Mathlib

/-!
# The Dining Philosophers simulation (`main.go`)

A shallow embedding of `startDine` and `diningProblem`:

* every goroutine is a small-step machine whose control points (`PC`) are the
  blocking or state-changing statements of `diningProblem`, in source order;
* the shared memory (the two `sync.WaitGroup` counters, the `forks` map of
  mutexes, `orderMutex` and `orderFinished`) is an explicit `State`;
* the scheduler is arbitrary: any thread that is not blocked may take the next
  step (`Reachable`).

Console output (`fmt.Printf`, `fmt.Println`) changes no state and is left out.
Loop tests and the `timesToEat--` decrement are thread-local and are folded
into the step that precedes them.
-/

namespace Dining

/-! ## Data model -/

/-- Go `type Philosopher struct`. -/
structure Philosopher where
  name : String
  leftFork : Int
  rightFork : Int
deriving DecidableEq, Repr

/-- Go `var philosophers`. -/
def philosophers : List Philosopher :=
  [ { name := "P0", leftFork := 4, rightFork := 0 },
    { name := "P1", leftFork := 0, rightFork := 1 },
    { name := "P2", leftFork := 1, rightFork := 2 },
    { name := "P3", leftFork := 2, rightFork := 3 },
    { name := "P4", leftFork := 3, rightFork := 4 } ]

/-- Go `const timesEachPhilosopherEats`. -/
def timesEachPhilosopherEats : Nat := 3

/-- Go `const singleEatTime = 1 * time.Second`, in nanoseconds. -/
def singleEatTime : Nat := 1 * 1000000000

/-- Go `const thinkTime = 3 * time.Second`, in nanoseconds. -/
def thinkTime : Nat := 3 * 1000000000

/-- The statements of `diningProblem` that touch shared state or may block. -/
inductive Action where
  /-- line 84: `philosophersSeated.Done()` -/
  | seatedDone
  /-- line 87: `philosophersSeated.Wait()` -/
  | seatedWait
  /-- lines 96, 99, 102, 105: `forks[fork].Lock()` -/
  | lock (fork : Int)
  /-- lines 109, 112: `time.Sleep(d)` -/
  | sleep (d : Nat)
  /-- lines 114, 115: `forks[fork].Unlock()` -/
  | unlock (fork : Int)
  /-- line 125: `orderMutex.Lock()` -/
  | orderLock
  /-- line 126: `orderFinished = append(orderFinished, name)` -/
  | append (name : String)
  /-- line 127: `orderMutex.Unlock()` -/
  | orderUnlock
  /-- line 80: the deferred `philosophersEatingWG.Done()` -/
  | eatingDone
deriving DecidableEq, Repr

/-- Control points of one `diningProblem` goroutine.  The argument of the
loop control points is the current value of `timesToEat`. -/
inductive PC where
  | seatedDone
  | seatedWait
  | lockFirst (timesToEat : Nat)
  | lockSecond (timesToEat : Nat)
  | eat (timesToEat : Nat)
  | think (timesToEat : Nat)
  | unlockLeft (timesToEat : Nat)
  | unlockRight (timesToEat : Nat)
  | orderLock
  | append
  | orderUnlock
  | eatingDone
  | returned
deriving DecidableEq, Repr

/-- The test `timesToEat > 0` of the `for` statement (line 89): enter the loop
body or fall through to line 125. -/
def loopEntry (timesToEat : Nat) : PC :=
  if timesToEat > 0 then PC.lockFirst timesToEat else PC.orderLock

/-- Control flow of `diningProblem`; `k` is `timesEachPhilosopherEats`. -/
def nextPC (k : Nat) : PC → PC
  | .seatedDone => .seatedWait
  | .seatedWait => loopEntry k
  | .lockFirst t => .lockSecond t
  | .lockSecond t => .eat t
  | .eat t => .think t
  | .think t => .unlockLeft t
  | .unlockLeft t => .unlockRight t
  | .unlockRight t => loopEntry (t - 1)
  | .orderLock => .append
  | .append => .orderUnlock
  | .orderUnlock => .eatingDone
  | .eatingDone => .returned
  | .returned => .returned

/-- The statement executed at a control point (`none` once the goroutine has
returned).  Lines 91-107: when `leftFork > rightFork` the right fork is locked
first, otherwise the left one. -/
def actionAt (p : Philosopher) : PC → Option Action
  | .seatedDone => some .seatedDone
  | .seatedWait => some .seatedWait
  | .lockFirst _ =>
      if p.leftFork > p.rightFork then some (.lock p.rightFork) else some (.lock p.leftFork)
  | .lockSecond _ =>
      if p.leftFork > p.rightFork then some (.lock p.leftFork) else some (.lock p.rightFork)
  | .eat _ => some (.sleep singleEatTime)
  | .think _ => some (.sleep thinkTime)
  | .unlockLeft _ => some (.unlock p.leftFork)
  | .unlockRight _ => some (.unlock p.rightFork)
  | .orderLock => some .orderLock
  | .append => some (.append p.name)
  | .orderUnlock => some .orderUnlock
  | .eatingDone => some .eatingDone
  | .returned => none

/-- One running `diningProblem` call: its `philosopher` argument and its
control point. -/
structure Goroutine where
  philosopher : Philosopher
  pc : PC
deriving DecidableEq, Repr

/-- Control points of `startDine` after the forks map has been built: the
launch loop (lines 71-73) with its counter, the final `Wait` (line 75), and
the return. -/
inductive MainPC where
  | launch (philosopherCount : Nat)
  | wait
  | returned
deriving DecidableEq, Repr

/-- The test of the launch loop (line 71). -/
def launchEntry (n philosopherCount : Nat) : MainPC :=
  if philosopherCount < n then MainPC.launch philosopherCount else MainPC.wait

/-- The memory shared by `startDine` and the goroutines, together with the
control state of every thread.  A mutex is `true` when locked; a fork key that
is absent from the map is `none` (a nil `*sync.Mutex`). -/
structure State where
  mainPc : MainPC
  eatingWG : Nat
  seatedWG : Nat
  forks : Int → Option Bool
  orderMutex : Bool
  orderFinished : List String
  threads : Nat → Option Goroutine

/-- Runtime faults of the Go program. -/
inductive Fault where
  | nilMutex
  | unlockOfUnlocked
  | negativeCounter
  | indexOutOfRange
deriving DecidableEq, Repr

/-- Result of asking a thread to take a step. -/
inductive Outcome where
  | next (s : State)
  | blocked
  | fatal (f : Fault)
  | idle

/-- The threads of the program. -/
inductive Thread where
  | main
  | phil (i : Nat)
deriving DecidableEq, Repr

/-- The loop of lines 67-69: `forks[forkCount] = &sync.Mutex{}` for
`forkCount` from `0` to `n - 1`. -/
def mkForks : Nat → Int → Option Bool
  | 0 => fun _ => none
  | n + 1 => Function.update (mkForks n) (n : Int) (some false)

/-- State of `startDine` when it reaches the launch loop (lines 60-69 done):
both counters are `len(philosophers)`, every fork is unlocked, no goroutine
exists, and the package-level `orderMutex`, `orderFinished` have their zero
values. -/
def startDine (ps : List Philosopher) : State :=
  { mainPc := launchEntry ps.length 0
    eatingWG := ps.length
    seatedWG := ps.length
    forks := mkForks ps.length
    orderMutex := false
    orderFinished := []
    threads := fun _ => none }

/-- Effect of one statement of `diningProblem` on the shared memory. -/
def exec (s : State) : Action → Outcome
  | .seatedDone =>
      if s.seatedWG = 0 then .fatal .negativeCounter
      else .next { s with seatedWG := s.seatedWG - 1 }
  | .seatedWait => if s.seatedWG = 0 then .next s else .blocked
  | .lock f =>
      match s.forks f with
      | none => .fatal .nilMutex
      | some true => .blocked
      | some false => .next { s with forks := Function.update s.forks f (some true) }
  | .sleep _ => .next s
  | .unlock f =>
      match s.forks f with
      | none => .fatal .nilMutex
      | some false => .fatal .unlockOfUnlocked
      | some true => .next { s with forks := Function.update s.forks f (some false) }
  | .orderLock => if s.orderMutex then .blocked else .next { s with orderMutex := true }
  | .append name => .next { s with orderFinished := s.orderFinished ++ [name] }
  | .orderUnlock =>
      if s.orderMutex then .next { s with orderMutex := false }
      else .fatal .unlockOfUnlocked
  | .eatingDone =>
      if s.eatingWG = 0 then .fatal .negativeCounter
      else .next { s with eatingWG := s.eatingWG - 1 }

/-- Move goroutine `i` to its next control point. -/
def advance (k : Nat) (i : Nat) (g : Goroutine) (s : State) : State :=
  { s with threads := Function.update s.threads i (some { g with pc := nextPC k g.pc }) }

/-- One step of `startDine`: launch the next goroutine
(`go diningProblem(philosophers[philosopherCount], ...)`), or pass
`philosophersEatingWG.Wait()` once the counter is zero. -/
def stepMain (ps : List Philosopher) (s : State) : Outcome :=
  match s.mainPc with
  | .launch c =>
      match ps[c]? with
      | none => .fatal .indexOutOfRange
      | some p =>
          .next { s with
            mainPc := launchEntry ps.length (c + 1)
            threads := Function.update s.threads c (some { philosopher := p, pc := .seatedDone }) }
  | .wait => if s.eatingWG = 0 then .next { s with mainPc := .returned } else .blocked
  | .returned => .idle

/-- One step of goroutine `i`. -/
def stepPhil (k : Nat) (s : State) (i : Nat) : Outcome :=
  match s.threads i with
  | none => .idle
  | some g =>
      match actionAt g.philosopher g.pc with
      | none => .idle
      | some a =>
          match exec s a with
          | .next s' => .next (advance k i g s')
          | o => o

/-- One step of thread `t` of the program with table `ps` and `k` rounds. -/
def step (ps : List Philosopher) (k : Nat) (s : State) : Thread → Outcome
  | .main => stepMain ps s
  | .phil i => stepPhil k s i

/-- The states the program can be in under any scheduling. -/
inductive Reachable (ps : List Philosopher) (k : Nat) : State → Prop where
  | start : Reachable ps k (startDine ps)
  | step {s s' : State} (t : Thread) :
      Reachable ps k s → step ps k s t = .next s' → Reachable ps k s'

/-- Thread `t` is able to take a step in `s`. -/
def CanStep (ps : List Philosopher) (k : Nat) (s : State) (t : Thread) : Prop :=
  ∃ s', step ps k s t = .next s'

instance (ps : List Philosopher) (k : Nat) (s : State) (t : Thread) :
    Decidable (CanStep ps k s t) :=
  match h : step ps k s t with
  | .next s' => isTrue ⟨s', h⟩
  | .blocked => isFalse (by rintro ⟨s', hs⟩; rw [h] at hs; cases hs)
  | .fatal _ => isFalse (by rintro ⟨s', hs⟩; rw [h] at hs; cases hs)
  | .idle => isFalse (by rintro ⟨s', hs⟩; rw [h] at hs; cases hs)

/-- Run a schedule: each listed thread takes one step if it can. -/
def run (ps : List Philosopher) (k : Nat) : List Thread → State → State
  | [], s => s
  | t :: ts, s =>
      match step ps k s t with
      | .next s' => run ps k ts s'
      | _ => run ps k ts s

/-- Goroutine-local view of holding a fork: `f` has been locked by this
goroutine (lines 96-105) and its `Unlock` (lines 114-115) is still ahead. -/
def holdsFork (p : Philosopher) (pc : PC) (f : Int) : Prop :=
  match pc with
  | .lockSecond _ => f = (if p.leftFork > p.rightFork then p.rightFork else p.leftFork)
  | .eat _ => f = p.leftFork ∨ f = p.rightFork
  | .think _ => f = p.leftFork ∨ f = p.rightFork
  | .unlockLeft _ => f = p.leftFork ∨ f = p.rightFork
  | .unlockRight _ => f = p.rightFork
  | _ => False

instance (p : Philosopher) (pc : PC) (f : Int) : Decidable (holdsFork p pc f) := by
  cases pc <;> simp only [holdsFork] <;> infer_instance

/-- Philosopher `i` holds fork `f` in state `s`. -/
def Holds (s : State) (i : Nat) (f : Int) : Prop :=
  ∃ g, s.threads i = some g ∧ holdsFork g.philosopher g.pc f

instance (s : State) (i : Nat) (f : Int) : Decidable (Holds s i f) :=
  match h : s.threads i with
  | none => isFalse (by rintro ⟨g, hg, _⟩; rw [h] at hg; cases hg)
  | some g =>
      if hh : holdsFork g.philosopher g.pc f then isTrue ⟨g, h, hh⟩
      else isFalse (by rintro ⟨g', hg, hh'⟩; rw [h] at hg; cases hg; exact hh hh')

/-- The sequence of statements a goroutine executes from control point `pc`
when it is never blocked, cut after `fuel` statements. -/
def traceFrom (k : Nat) (p : Philosopher) : Nat → PC → List Action
  | 0, _ => []
  | fuel + 1, pc =>
      match actionAt p pc with
      | none => []
      | some a => a :: traceFrom k p fuel (nextPC k pc)

/-- The control point reached after `n` statements. -/
def pcAfter (k : Nat) : Nat → PC → PC
  | 0, pc => pc
  | n + 1, pc => pcAfter k n (nextPC k pc)

/-! ## Bookkeeping over the goroutine table -/

/-- Sum of a weight over goroutines `0 .. n-1`. -/
def sumThreads (w : Option Goroutine → Nat) (th : Nat → Option Goroutine) : Nat → Nat
  | 0 => 0
  | n + 1 => sumThreads w th n + w (th n)

/-- Weight 1 for a philosopher that has not yet executed `philosophersSeated.Done()`. -/
def notSeated : Option Goroutine → Nat
  | none => 1
  | some g => if g.pc = .seatedDone then 1 else 0

/-- Weight 1 for a philosopher that has not yet executed `philosophersEatingWG.Done()`. -/
def notReturned : Option Goroutine → Nat
  | none => 1
  | some g => if g.pc = .returned then 0 else 1

/-- Control points after `philosophersSeated.Wait()`. -/
def pastBarrier : PC → Prop
  | .seatedDone => False
  | .seatedWait => False
  | _ => True

instance (pc : PC) : Decidable (pastBarrier pc) := by
  cases pc <;> simp only [pastBarrier] <;> infer_instance

/-- Control points between `orderMutex.Lock()` and `orderMutex.Unlock()`. -/
def inOrderSection : PC → Prop
  | .append => True
  | .orderUnlock => True
  | _ => False

instance (pc : PC) : Decidable (inOrderSection pc) := by
  cases pc <;> simp only [inOrderSection] <;> infer_instance

/-- Control points after the `append` of line 126. -/
def hasAppended : PC → Prop
  | .orderUnlock => True
  | .eatingDone => True
  | .returned => True
  | _ => False

instance (pc : PC) : Decidable (hasAppended pc) := by
  cases pc <;> simp only [hasAppended] <;> infer_instance

/-- Number of goroutines `startDine` has launched so far. -/
def launchedCount (n : Nat) : MainPC → Nat
  | .launch c => c
  | _ => n

/-- The name of `philosophers[i]` (empty outside the table). -/
def nameAt (ps : List Philosopher) (i : Nat) : String :=
  match ps[i]? with
  | some p => p.name
  | none => ""

/-- Tables the program can run on without faults: every fork index is a key
of the forks map and nobody has the same fork on both sides. -/
def WellFormed (ps : List Philosopher) : Prop :=
  ∀ p ∈ ps, (0 ≤ p.leftFork ∧ p.leftFork < ps.length) ∧
    (0 ≤ p.rightFork ∧ p.rightFork < ps.length) ∧ p.leftFork ≠ p.rightFork

instance (ps : List Philosopher) : Decidable (WellFormed ps) := by
  unfold WellFormed; infer_instance

/-- A table of `N` philosophers arranged like the program's: philosopher `i`
has left fork `(i - 1) mod N` and right fork `i`. -/
def Cyclic (ps : List Philosopher) : Prop :=
  ∀ i : Fin ps.length,
    (ps.get i).leftFork = ((i.val : Int) - 1) % (ps.length : Int) ∧
      (ps.get i).rightFork = (i.val : Int)

instance (ps : List Philosopher) : Decidable (Cyclic ps) := by
  unfold Cyclic; infer_instance

/-! ## The inductive invariant -/

/-- Facts that hold in every reachable state of a well-formed table. -/
structure Inv (ps : List Philosopher) (s : State) : Prop where
  args : ∀ i g, s.threads i = some g → ps[i]? = some g.philosopher
  launched : ∀ i, s.threads i ≠ none ↔ i < launchedCount ps.length s.mainPc
  launchBound : ∀ c, s.mainPc = .launch c → c < ps.length
  seated : s.seatedWG = sumThreads notSeated s.threads ps.length
  eating : s.eatingWG = sumThreads notReturned s.threads ps.length
  barrier : ∀ i g, s.threads i = some g → pastBarrier g.pc → s.seatedWG = 0
  forkKeys : ∀ f, s.forks f ≠ none ↔ (0 ≤ f ∧ f < ps.length)
  forkLocked : ∀ f, s.forks f = some true ↔ ∃ i, Holds s i f
  forkExcl : ∀ f i j, Holds s i f → Holds s j f → i = j
  orderLocked : s.orderMutex = true ↔ ∃ i g, s.threads i = some g ∧ inOrderSection g.pc
  orderExcl : ∀ i j gi gj, s.threads i = some gi → s.threads j = some gj →
    inOrderSection gi.pc → inOrderSection gj.pc → i = j
  ledger : ∃ idxs : List Nat, idxs.Nodup ∧
    (∀ i, i ∈ idxs ↔ ∃ g, s.threads i = some g ∧ hasAppended g.pc) ∧
    s.orderFinished = idxs.map (nameAt ps)
  mainDone : s.mainPc = .returned → s.eatingWG = 0

/-- What a successful statement `a` does to the shared memory. -/
structure Effect (s s1 : State) (a : Action) : Prop where
  mainPc : s1.mainPc = s.mainPc
  seatedDone : a = .seatedDone → s.seatedWG ≠ 0 ∧ s1.seatedWG = s.seatedWG - 1
  seatedKeep : a ≠ .seatedDone → s1.seatedWG = s.seatedWG
  seatedWait : a = .seatedWait → s.seatedWG = 0
  eatingDone : a = .eatingDone → s.eatingWG ≠ 0 ∧ s1.eatingWG = s.eatingWG - 1
  eatingKeep : a ≠ .eatingDone → s1.eatingWG = s.eatingWG
  lock : ∀ f, a = .lock f → s.forks f = some false ∧ s1.forks = Function.update s.forks f (some true)
  unlock : ∀ f, a = .unlock f →
    s.forks f = some true ∧ s1.forks = Function.update s.forks f (some false)
  forksKeep : (∀ f, a ≠ .lock f) → (∀ f, a ≠ .unlock f) → s1.forks = s.forks
  orderLock : a = .orderLock → s.orderMutex = false ∧ s1.orderMutex = true
  orderUnlock : a = .orderUnlock → s.orderMutex = true ∧ s1.orderMutex = false
  orderKeep : a ≠ .orderLock → a ≠ .orderUnlock → s1.orderMutex = s.orderMutex
  append : ∀ n, a = .append n → s1.orderFinished = s.orderFinished ++ [n]
  ledgerKeep : (∀ n, a ≠ .append n) → s1.orderFinished = s.orderFinished

/-! ## Progress measure -/

/-- Number of statements a goroutine at `pc` still has to execute. -/
def pcMeasure (k : Nat) : PC → Nat
  | .seatedDone => 12 + 6 * k
  | .seatedWait => 11 + 6 * k
  | .lockFirst t => 10 + 6 * (t - 1)
  | .lockSecond t => 9 + 6 * (t - 1)
  | .eat t => 8 + 6 * (t - 1)
  | .think t => 7 + 6 * (t - 1)
  | .unlockLeft t => 6 + 6 * (t - 1)
  | .unlockRight t => 5 + 6 * (t - 1)
  | .orderLock => 4
  | .append => 3
  | .orderUnlock => 2
  | .eatingDone => 1
  | .returned => 0

/-- Remaining work of a goroutine slot; a goroutine that is still to be
launched counts one more than a freshly launched one. -/
def threadMeasure (k : Nat) : Option Goroutine → Nat
  | none => 13 + 6 * k
  | some g => pcMeasure k g.pc

/-- Remaining control points of `startDine`. -/
def mainMeasure : MainPC → Nat
  | .launch _ => 2
  | .wait => 1
  | .returned => 0

/-- Upper bound on the number of steps the whole program can still take. -/
def stateMeasure (ps : List Philosopher) (k : Nat) (s : State) : Nat :=
  mainMeasure s.mainPc + sumThreads (threadMeasure k) s.threads ps.length

/-- Philosopher `i` has returned from `diningProblem`. -/
def Finished (s : State) (i : Nat) : Prop :=
  ∃ g, s.threads i = some g ∧ g.pc = .returned

instance (s : State) (i : Nat) : Decidable (Finished s i) :=
  match h : s.threads i with
  | none => isFalse (by rintro ⟨g, hg, _⟩; rw [h] at hg; cases hg)
  | some g =>
      if hh : g.pc = .returned then isTrue ⟨g, h, hh⟩
      else isFalse (by rintro ⟨g', hg, hh'⟩; rw [h] at hg; cases hg; exact hh hh')

/-- Philosopher `i` has executed `philosophersSeated.Done()`. -/
def Seated (s : State) (i : Nat) : Prop :=
  ∃ g, s.threads i = some g ∧ g.pc ≠ .seatedDone

instance (s : State) (i : Nat) : Decidable (Seated s i) :=
  match h : s.threads i with
  | none => isFalse (by rintro ⟨g, hg, _⟩; rw [h] at hg; cases hg)
  | some g =>
      if hh : g.pc ≠ .seatedDone then isTrue ⟨g, h, hh⟩
      else isFalse (by rintro ⟨g', hg, hh'⟩; rw [h] at hg; cases hg; exact hh hh')

/-! ## Observations used in the statements -/

/-- The statement is a fork `Lock`. -/
def Action.isLock : Action → Bool
  | .lock _ => true
  | _ => false

/-- The statement is a fork `Unlock`. -/
def Action.isUnlock : Action → Bool
  | .unlock _ => true
  | _ => false

/-- The statement is the `append` to `orderFinished`. -/
def Action.isAppend : Action → Bool
  | .append _ => true
  | _ => false

/-- In the statement sequence `tr` both `Unlock`s of philosopher `p` come
before the `thinkTime` sleep. -/
def UnlocksBeforeThink (p : Philosopher) (tr : List Action) : Prop :=
  tr.indexOf (Action.unlock p.leftFork) < tr.indexOf (Action.sleep thinkTime) ∧
    tr.indexOf (Action.unlock p.rightFork) < tr.indexOf (Action.sleep thinkTime)

instance (p : Philosopher) (tr : List Action) : Decidable (UnlocksBeforeThink p tr) := by
  unfold UnlocksBeforeThink; infer_instance

/-- In the statement sequence `tr` the `thinkTime` sleep comes before both
`Unlock`s of philosopher `p`. -/
def ThinkBeforeUnlocks (p : Philosopher) (tr : List Action) : Prop :=
  tr.indexOf (Action.sleep thinkTime) < tr.indexOf (Action.unlock p.leftFork) ∧
    tr.indexOf (Action.sleep thinkTime) < tr.indexOf (Action.unlock p.rightFork)

instance (p : Philosopher) (tr : List Action) : Decidable (ThinkBeforeUnlocks p tr) := by
  unfold ThinkBeforeUnlocks; infer_instance

/-- Schedule: `startDine` launches the five goroutines and each philosopher
takes its seat. -/
def seatAll : List Thread :=
  List.replicate 5 Thread.main ++ (List.range 5).map Thread.phil

/-- Schedule: after `seatAll`, philosophers 1 to 4 pass the barrier and each
takes its first fork (forks 0, 1, 2, 3), while philosopher 0 passes the
barrier and finds fork 0 taken. -/
def contended : List Thread :=
  seatAll ++ [Thread.phil 1, .phil 2, .phil 3, .phil 4, .phil 0] ++
    [Thread.phil 1, .phil 2, .phil 3, .phil 4, .phil 0]

/-- Schedule: after `seatAll`, philosopher 1 passes the barrier, locks both
forks and finishes eating, so that its next statement is the `thinkTime` sleep. -/
def oneThinking : List Thread :=
  seatAll ++ List.replicate 4 (Thread.phil 1)

/-- Schedule: after `oneThinking`, philosopher 1 sleeps `thinkTime` and
releases its left fork, so that its next statement is the second `Unlock`. -/
def oneUnlocking : List Thread :=
  oneThinking ++ List.replicate 2 (Thread.phil 1)

/-- Schedule: after `seatAll` the philosophers run to completion one after the
other, then `startDine` returns. -/
def sequential : List Thread :=
  seatAll ++ (List.range 5).flatMap (fun i => List.replicate 23 (Thread.phil i)) ++
    [Thread.main]

/-- The state reached by a schedule of the program (`philosophers`,
`timesEachPhilosopherEats`). -/
def stateAfter (sched : List Thread) : State :=
  run philosophers timesEachPhilosopherEats sched (startDine philosophers)

/-! ## Bookkeeping lemmas -/

theorem sumThreads_update_lt (w : Option Goroutine → Nat) (th : Nat → Option Goroutine)
    (i : Nat) (v : Option Goroutine) :
    ∀ n, i < n → sumThreads w (Function.update th i v) n + w (th i) = sumThreads w th n + w v
  | 0, h => absurd h (Nat.not_lt_zero _)
  | n + 1, h => by
    rcases Nat.lt_succ_iff_lt_or_eq.mp h with h1 | h1
    · have ih := sumThreads_update_lt w th i v n h1
      have hne : n ≠ i := by omega
      simp only [sumThreads, Function.update_noteq hne]
      omega
    · subst h1
      have hsame : ∀ m, m ≤ i → sumThreads w (Function.update th i v) m = sumThreads w th m := by
        intro m
        induction m with
        | zero => intro _; rfl
        | succ m ihm =>
          intro hm
          have hne : m ≠ i := by omega
          simp only [sumThreads, Function.update_noteq hne, ihm (by omega)]
      simp only [sumThreads, Function.update_same, hsame i (le_refl _)]
      omega

theorem sumThreads_eq_zero (w : Option Goroutine → Nat) (th : Nat → Option Goroutine) :
    ∀ n, sumThreads w th n = 0 → ∀ i, i < n → w (th i) = 0
  | 0, _, i, hi => absurd hi (Nat.not_lt_zero _)
  | n + 1, h, i, hi => by
    simp only [sumThreads] at h
    rcases Nat.lt_succ_iff_lt_or_eq.mp hi with h1 | h1
    · exact sumThreads_eq_zero w th n (by omega) i h1
    · subst h1; omega

theorem sumThreads_pos (w : Option Goroutine → Nat) (th : Nat → Option Goroutine) :
    ∀ n, 0 < sumThreads w th n → ∃ i, i < n ∧ 0 < w (th i)
  | 0, h => absurd h (Nat.lt_irrefl _)
  | n + 1, h => by
    simp only [sumThreads] at h
    by_cases hn : 0 < w (th n)
    · exact ⟨n, Nat.lt_succ_self n, hn⟩
    · obtain ⟨i, hi, hw⟩ := sumThreads_pos w th n (by omega)
      exact ⟨i, Nat.lt_succ_of_lt hi, hw⟩

theorem sumThreads_ge (w : Option Goroutine → Nat) (th : Nat → Option Goroutine) :
    ∀ n i, i < n → w (th i) ≤ sumThreads w th n
  | 0, i, hi => absurd hi (Nat.not_lt_zero _)
  | n + 1, i, hi => by
    simp only [sumThreads]
    rcases Nat.lt_succ_iff_lt_or_eq.mp hi with h1 | h1
    · have := sumThreads_ge w th n i h1; omega
    · subst h1; omega

/-! ## Inversion of steps -/

theorem stepPhil_next {k : Nat} {s s' : State} {i : Nat} (h : stepPhil k s i = .next s') :
    ∃ g a s1, s.threads i = some g ∧ actionAt g.philosopher g.pc = some a ∧
      exec s a = .next s1 ∧ s' = advance k i g s1 := by
  unfold stepPhil at h
  cases hg : s.threads i with
  | none => simp [hg] at h
  | some g =>
    cases ha : actionAt g.philosopher g.pc with
    | none => simp [hg, ha] at h
    | some a =>
      cases he : exec s a with
      | next s1 =>
        simp only [hg, ha, he] at h
        injection h with h
        exact ⟨g, a, s1, rfl, ha, he, h.symm⟩
      | blocked => simp [hg, ha, he] at h
      | fatal f => simp [hg, ha, he] at h
      | idle => simp [hg, ha, he] at h

theorem exec_effect {s s1 : State} {a : Action} (h : exec s a = .next s1) :
    Effect s s1 a ∧ s1.threads = s.threads := by
  cases a <;> simp only [exec] at h
  case seatedDone =>
    split at h
    · cases h
    · injection h with h; subst h
      refine ⟨⟨?_, ?_, ?_, ?_, ?_, ?_, ?_, ?_, ?_, ?_, ?_, ?_, ?_, ?_⟩, rfl⟩ <;> simp_all
  case seatedWait =>
    split at h
    · injection h with h; subst h
      refine ⟨⟨?_, ?_, ?_, ?_, ?_, ?_, ?_, ?_, ?_, ?_, ?_, ?_, ?_, ?_⟩, rfl⟩ <;> simp_all
    · cases h
  case lock f =>
    split at h
    · cases h
    · cases h
    · injection h with h; subst h
      refine ⟨⟨?_, ?_, ?_, ?_, ?_, ?_, ?_, ?_, ?_, ?_, ?_, ?_, ?_, ?_⟩, rfl⟩ <;> simp_all
  case sleep d =>
    injection h with h; subst h
    refine ⟨⟨?_, ?_, ?_, ?_, ?_, ?_, ?_, ?_, ?_, ?_, ?_, ?_, ?_, ?_⟩, rfl⟩ <;> simp_all
  case unlock f =>
    split at h
    · cases h
    · cases h
    · injection h with h; subst h
      refine ⟨⟨?_, ?_, ?_, ?_, ?_, ?_, ?_, ?_, ?_, ?_, ?_, ?_, ?_, ?_⟩, rfl⟩ <;> simp_all
  case orderLock =>
    split at h
    · cases h
    · injection h with h; subst h
      refine ⟨⟨?_, ?_, ?_, ?_, ?_, ?_, ?_, ?_, ?_, ?_, ?_, ?_, ?_, ?_⟩, rfl⟩ <;> simp_all
  case append n =>
    injection h with h; subst h
    refine ⟨⟨?_, ?_, ?_, ?_, ?_, ?_, ?_, ?_, ?_, ?_, ?_, ?_, ?_, ?_⟩, rfl⟩ <;> simp_all
  case orderUnlock =>
    split at h
    · injection h with h; subst h
      refine ⟨⟨?_, ?_, ?_, ?_, ?_, ?_, ?_, ?_, ?_, ?_, ?_, ?_, ?_, ?_⟩, rfl⟩ <;> simp_all
    · cases h
  case eatingDone =>
    split at h
    · cases h
    · injection h with h; subst h
      refine ⟨⟨?_, ?_, ?_, ?_, ?_, ?_, ?_, ?_, ?_, ?_, ?_, ?_, ?_, ?_⟩, rfl⟩ <;> simp_all

theorem stepPhil_effect {k : Nat} {s s' : State} {i : Nat} (h : stepPhil k s i = .next s') :
    ∃ p pc a, s.threads i = some ⟨p, pc⟩ ∧ actionAt p pc = some a ∧
      s'.threads = Function.update s.threads i (some ⟨p, nextPC k pc⟩) ∧ Effect s s' a := by
  obtain ⟨g, a, s1, hg, ha, he, rfl⟩ := stepPhil_next h
  obtain ⟨hE, hT⟩ := exec_effect he
  refine ⟨g.philosopher, g.pc, a, hg, ha, ?_, ?_⟩
  · simp only [advance, hT]
  · exact ⟨hE.1, hE.2, hE.3, hE.4, hE.5, hE.6, hE.7, hE.8, hE.9, hE.10, hE.11, hE.12, hE.13, hE.14⟩

/-! ## Thread-local facts about control points -/

theorem loopEntry_cases (t : Nat) : loopEntry t = .lockFirst t ∨ loopEntry t = .orderLock := by
  unfold loopEntry; split <;> simp

theorem loopEntry_ne_seatedDone (t : Nat) : loopEntry t ≠ .seatedDone := by
  rcases loopEntry_cases t with h | h <;> simp [h]

theorem loopEntry_ne_returned (t : Nat) : loopEntry t ≠ .returned := by
  rcases loopEntry_cases t with h | h <;> simp [h]

theorem notSeated_next (k : Nat) (p : Philosopher) (pc : PC) :
    notSeated (some ⟨p, nextPC k pc⟩) = 0 := by
  cases pc <;> simp [nextPC, notSeated, loopEntry_ne_seatedDone]

theorem notSeated_cur {p : Philosopher} {pc : PC} {a : Action}
    (ha : actionAt p pc = some a) :
    notSeated (some ⟨p, pc⟩) = if a = .seatedDone then 1 else 0 := by
  cases pc <;> simp only [actionAt] at ha <;> (try split at ha) <;> cases ha <;>
    simp [notSeated]

theorem notReturned_cur {p : Philosopher} {pc : PC} {a : Action}
    (ha : actionAt p pc = some a) : notReturned (some ⟨p, pc⟩) = 1 := by
  cases pc <;> simp only [actionAt] at ha <;> (try split at ha) <;> cases ha <;>
    simp [notReturned]

theorem notReturned_next (k : Nat) {p : Philosopher} {pc : PC} {a : Action}
    (ha : actionAt p pc = some a) :
    notReturned (some ⟨p, nextPC k pc⟩) = if a = .eatingDone then 0 else 1 := by
  cases pc <;> simp only [actionAt] at ha <;> (try split at ha) <;> cases ha <;>
    simp [nextPC, notReturned, loopEntry_ne_returned]

theorem pastBarrier_next (k : Nat) {p : Philosopher} {pc : PC} {a : Action}
    (ha : actionAt p pc = some a) :
    pastBarrier (nextPC k pc) → pastBarrier pc ∨ a = .seatedWait := by
  cases pc <;> simp only [actionAt] at ha <;> (try split at ha) <;> cases ha <;>
    simp [nextPC, pastBarrier]

theorem holdsFork_loopEntry (p : Philosopher) (t : Nat) (f : Int) :
    ¬ holdsFork p (loopEntry t) f := by
  rcases loopEntry_cases t with h | h <;> simp [h, holdsFork]

/-- The goroutine-local `holdsFork` changes exactly at fork statements: a fork
is held after a step iff it was held and is not the one unlocked, or it is the
one locked. -/
theorem holdsFork_next (k : Nat) {p : Philosopher} {pc : PC} {a : Action}
    (hne : p.leftFork ≠ p.rightFork) (ha : actionAt p pc = some a) (f : Int) :
    holdsFork p (nextPC k pc) f ↔ (holdsFork p pc f ∧ a ≠ .unlock f) ∨ a = .lock f := by
  cases pc <;> simp only [actionAt] at ha <;> (try split at ha) <;> cases ha <;>
    simp only [nextPC, holdsFork_loopEntry] <;> simp_all [holdsFork] <;> omega

theorem holdsFork_of_unlock {p : Philosopher} {pc : PC} {f : Int}
    (ha : actionAt p pc = some (.unlock f)) : holdsFork p pc f := by
  cases pc <;> simp only [actionAt] at ha <;> (try split at ha) <;> cases ha <;>
    simp [holdsFork]

theorem inOrderSection_loopEntry (t : Nat) : ¬ inOrderSection (loopEntry t) := by
  rcases loopEntry_cases t with h | h <;> simp [h, inOrderSection]

theorem inOrderSection_next (k : Nat) {p : Philosopher} {pc : PC} {a : Action}
    (ha : actionAt p pc = some a) :
    inOrderSection (nextPC k pc) ↔ (inOrderSection pc ∧ a ≠ .orderUnlock) ∨ a = .orderLock := by
  cases pc <;> simp only [actionAt] at ha <;> (try split at ha) <;> cases ha <;>
    simp only [nextPC, inOrderSection_loopEntry] <;> simp [inOrderSection]

theorem inOrderSection_of_unlock {p : Philosopher} {pc : PC}
    (ha : actionAt p pc = some .orderUnlock) : inOrderSection pc := by
  cases pc with
  | orderUnlock => trivial
  | lockFirst t => simp only [actionAt] at ha; split at ha <;> cases ha
  | lockSecond t => simp only [actionAt] at ha; split at ha <;> cases ha
  | _ => cases ha

theorem hasAppended_loopEntry (t : Nat) : ¬ hasAppended (loopEntry t) := by
  rcases loopEntry_cases t with h | h <;> simp [h, hasAppended]

theorem hasAppended_next (k : Nat) {p : Philosopher} {pc : PC} {a : Action}
    (ha : actionAt p pc = some a) :
    hasAppended (nextPC k pc) ↔ hasAppended pc ∨ a = .append p.name := by
  cases pc <;> simp only [actionAt] at ha <;> (try split at ha) <;> cases ha <;>
    simp only [nextPC, hasAppended_loopEntry] <;> simp [hasAppended]

theorem hasAppended_cur {p : Philosopher} {pc : PC} {n : String}
    (ha : actionAt p pc = some (.append n)) : ¬ hasAppended pc ∧ n = p.name := by
  cases pc with
  | append => cases ha; exact ⟨fun h => h, rfl⟩
  | lockFirst t => simp only [actionAt] at ha; split at ha <;> cases ha
  | lockSecond t => simp only [actionAt] at ha; split at ha <;> cases ha
  | _ => cases ha

/-! ## The invariant holds initially -/

theorem mkForks_apply (n : Nat) (f : Int) :
    mkForks n f = if 0 ≤ f ∧ f < (n : Int) then some false else none := by
  induction n with
  | zero =>
    simp only [mkForks]
    rw [if_neg]; simp only [Nat.cast_zero, not_and, not_lt]; exact fun h => h
  | succ n ih =>
    simp only [mkForks, Function.update_apply, ih]
    by_cases h : f = (n : Int)
    · subst h; simp
    · simp only [h, if_false]
      by_cases h2 : 0 ≤ f ∧ f < (n : Int)
      · rw [if_pos h2, if_pos]; constructor; exact h2.1; push_cast; omega
      · rw [if_neg h2, if_neg]; push_cast; omega

theorem sumThreads_const_none (w : Option Goroutine → Nat) (h : w none = 1) :
    ∀ n, sumThreads w (fun _ => none) n = n
  | 0 => rfl
  | n + 1 => by simp only [sumThreads, sumThreads_const_none w h n, h]

theorem inv_start (ps : List Philosopher) : Inv ps (startDine ps) := by
  refine ⟨?_, ?_, ?_, ?_, ?_, ?_, ?_, ?_, ?_, ?_, ?_, ?_, ?_⟩
  · intro i g h; simp [startDine] at h
  · intro i
    simp only [startDine, launchEntry, ne_eq, not_true_eq_false, false_iff, not_lt]
    split <;> simp [launchedCount]
    omega
  · intro c h
    simp only [startDine, launchEntry] at h
    split at h
    · injection h with h; omega
    · cases h
  · simp only [startDine]; exact (sumThreads_const_none _ rfl _).symm
  · simp only [startDine]; exact (sumThreads_const_none _ rfl _).symm
  · intro i g h; simp [startDine] at h
  · intro f
    simp only [startDine, mkForks_apply]
    split <;> simp_all
  · intro f
    simp only [startDine, mkForks_apply, Holds]
    split <;> simp
  · intro f i j h; simp [Holds, startDine] at h
  · simp [startDine]
  · intro i j gi gj h; simp [startDine] at h
  · refine ⟨[], List.nodup_nil, ?_, ?_⟩ <;> simp [startDine]
  · intro h
    simp only [startDine, launchEntry] at h
    split at h <;> cases h

/-! ## The invariant is preserved by every step -/

theorem args_lt {ps : List Philosopher} {s : State} (hinv : Inv ps s) {i : Nat} {g : Goroutine}
    (hg : s.threads i = some g) : i < ps.length := by
  have h := hinv.args i g hg
  by_contra hc
  rw [List.getElem?_eq_none (by omega)] at h
  cases h

theorem holds_update {s s' : State} {i : Nat} {g' : Goroutine}
    (hth : s'.threads = Function.update s.threads i (some g')) (j : Nat) (f : Int) :
    Holds s' j f ↔ (j = i ∧ holdsFork g'.philosopher g'.pc f) ∨ (j ≠ i ∧ Holds s j f) := by
  unfold Holds
  rw [hth]
  by_cases hj : j = i
  · subst hj; simp
  · simp [Function.update_noteq hj, hj]

theorem wellFormed_ne {ps : List Philosopher} (hwf : WellFormed ps) {i : Nat} {p : Philosopher}
    (h : ps[i]? = some p) : p.leftFork ≠ p.rightFork :=
  (hwf p (List.getElem?_mem h)).2.2

theorem holds_step {ps : List Philosopher} {k : Nat} {s s' : State} {i : Nat} {p : Philosopher}
    {pc : PC} {a : Action} (hwf : WellFormed ps) (hinv : Inv ps s)
    (hg : s.threads i = some ⟨p, pc⟩) (ha : actionAt p pc = some a)
    (hth : s'.threads = Function.update s.threads i (some ⟨p, nextPC k pc⟩)) (j : Nat) (f : Int) :
    Holds s' j f ↔
      (j = i ∧ ((Holds s i f ∧ a ≠ .unlock f) ∨ a = .lock f)) ∨ (j ≠ i ∧ Holds s j f) := by
  rw [holds_update hth j f]
  have hne := wellFormed_ne hwf (hinv.args i _ hg)
  have hi : Holds s i f ↔ holdsFork p pc f := by
    unfold Holds; simp [hg]
  simp only [holdsFork_next k hne ha f, hi]

theorem inv_stepPhil {ps : List Philosopher} {k : Nat} {s s' : State} {i : Nat}
    (hwf : WellFormed ps) (hinv : Inv ps s) (h : stepPhil k s i = .next s') : Inv ps s' := by
  obtain ⟨p, pc, a, hg, ha, hth, hE⟩ := stepPhil_effect h
  have hi := args_lt hinv hg
  have hH := holds_step hwf hinv hg ha hth
  have hHi : ∀ f, Holds s i f ↔ holdsFork p pc f := by
    intro f; unfold Holds; simp [hg]
  refine ⟨?_, ?_, ?_, ?_, ?_, ?_, ?_, ?_, ?_, ?_, ?_, ?_, ?_⟩
  · -- args
    intro j g hj
    rw [hth] at hj
    by_cases hji : j = i
    · subst hji
      simp only [Function.update_same, Option.some.injEq] at hj
      subst hj
      exact hinv.args j ⟨p, pc⟩ hg
    · rw [Function.update_noteq hji] at hj
      exact hinv.args j g hj
  · -- launched
    intro j
    rw [hth, hE.mainPc]
    by_cases hji : j = i
    · subst hji
      simp only [Function.update_same, ne_eq, reduceCtorEq, not_false_eq_true, true_iff]
      exact (hinv.launched j).mp (by rw [hg]; simp)
    · rw [Function.update_noteq hji]
      exact hinv.launched j
  · -- launchBound
    intro c hc
    rw [hE.mainPc] at hc
    exact hinv.launchBound c hc
  · -- seated
    have hsum := sumThreads_update_lt notSeated s.threads i (some ⟨p, nextPC k pc⟩) _ hi
    rw [hg, notSeated_next, notSeated_cur ha] at hsum
    rw [hth]
    have hs := hinv.seated
    by_cases hd : a = .seatedDone
    · have := hE.seatedDone hd
      rw [if_pos hd] at hsum
      omega
    · have := hE.seatedKeep hd
      rw [if_neg hd] at hsum
      omega
  · -- eating
    have hsum := sumThreads_update_lt notReturned s.threads i (some ⟨p, nextPC k pc⟩) _ hi
    rw [hg, notReturned_next k ha, notReturned_cur ha] at hsum
    rw [hth]
    have hs := hinv.eating
    by_cases hd : a = .eatingDone
    · have := hE.eatingDone hd
      rw [if_pos hd] at hsum
      omega
    · have := hE.eatingKeep hd
      rw [if_neg hd] at hsum
      omega
  · -- barrier
    intro j g hj hpast
    rw [hth] at hj
    have hzero : s.seatedWG = 0 := by
      by_cases hji : j = i
      · subst hji
        simp only [Function.update_same, Option.some.injEq] at hj
        subst hj
        rcases pastBarrier_next k ha hpast with h1 | h1
        · exact hinv.barrier j _ hg h1
        · exact hE.seatedWait h1
      · rw [Function.update_noteq hji] at hj
        exact hinv.barrier j g hj hpast
    have hd : a ≠ .seatedDone := fun hd => (hE.seatedDone hd).1 hzero
    rw [hE.seatedKeep hd]; exact hzero
  · -- forkKeys
    intro f
    rw [← hinv.forkKeys f]
    cases a with
    | lock f0 =>
      obtain ⟨h0, h1⟩ := hE.lock f0 rfl
      rw [h1]
      by_cases hf : f = f0
      · subst hf; simp [h0]
      · rw [Function.update_noteq hf]
    | unlock f0 =>
      obtain ⟨h0, h1⟩ := hE.unlock f0 rfl
      rw [h1]
      by_cases hf : f = f0
      · subst hf; simp [h0]
      · rw [Function.update_noteq hf]
    | _ => rw [hE.forksKeep (by simp) (by simp)]
  · -- forkLocked
    intro f
    cases a with
    | lock f0 =>
      obtain ⟨h0, h1⟩ := hE.lock f0 rfl
      rw [h1]
      by_cases hf : f = f0
      · subst hf
        simp only [Function.update_same, true_iff]
        exact ⟨i, (hH i f).mpr (Or.inl ⟨rfl, Or.inr rfl⟩)⟩
      · rw [Function.update_noteq hf, hinv.forkLocked f]
        have hne : Action.lock f0 ≠ Action.lock f := by
          intro hc; injection hc with hc; exact hf hc.symm
        constructor
        · rintro ⟨j, hj⟩
          refine ⟨j, (hH j f).mpr ?_⟩
          by_cases hji : j = i
          · subst hji; exact Or.inl ⟨rfl, Or.inl ⟨hj, by simp⟩⟩
          · exact Or.inr ⟨hji, hj⟩
        · rintro ⟨j, hj⟩
          rcases (hH j f).mp hj with ⟨rfl, h2 | h2⟩ | ⟨_, h2⟩
          · exact ⟨j, h2.1⟩
          · exact absurd h2 hne
          · exact ⟨j, h2⟩
    | unlock f0 =>
      obtain ⟨h0, h1⟩ := hE.unlock f0 rfl
      have hown : Holds s i f0 := (hHi f0).mpr (holdsFork_of_unlock ha)
      rw [h1]
      by_cases hf : f = f0
      · subst hf
        simp only [Function.update_same, Option.some.injEq, Bool.false_eq_true, false_iff,
          not_exists]
        intro j hj
        rcases (hH j f).mp hj with ⟨_, h2 | h2⟩ | ⟨hji, h2⟩
        · exact h2.2 rfl
        · cases h2
        · exact hji (hinv.forkExcl f j i h2 hown)
      · rw [Function.update_noteq hf, hinv.forkLocked f]
        have hne : Action.unlock f0 ≠ Action.unlock f := by
          intro hc; injection hc with hc; exact hf hc.symm
        constructor
        · rintro ⟨j, hj⟩
          refine ⟨j, (hH j f).mpr ?_⟩
          by_cases hji : j = i
          · subst hji; exact Or.inl ⟨rfl, Or.inl ⟨hj, hne⟩⟩
          · exact Or.inr ⟨hji, hj⟩
        · rintro ⟨j, hj⟩
          rcases (hH j f).mp hj with ⟨rfl, h2 | h2⟩ | ⟨_, h2⟩
          · exact ⟨j, h2.1⟩
          · cases h2
          · exact ⟨j, h2⟩
    | _ =>
      rw [hE.forksKeep (by simp) (by simp), hinv.forkLocked f]
      constructor
      · rintro ⟨j, hj⟩
        refine ⟨j, (hH j f).mpr ?_⟩
        by_cases hji : j = i
        · subst hji; exact Or.inl ⟨rfl, Or.inl ⟨hj, by simp⟩⟩
        · exact Or.inr ⟨hji, hj⟩
      · rintro ⟨j, hj⟩
        rcases (hH j f).mp hj with ⟨rfl, h2 | h2⟩ | ⟨_, h2⟩
        · exact ⟨j, h2.1⟩
        · cases h2
        · exact ⟨j, h2⟩
  · -- forkExcl
    intro f j1 j2 h1 h2
    have key : ∀ j, Holds s' j f → j ≠ i → Holds s j f := by
      intro j hj hji
      rcases (hH j f).mp hj with ⟨h3, _⟩ | ⟨_, h3⟩
      · exact absurd h3 hji
      · exact h3
    have own : ∀ j, Holds s' j f → j ≠ i → ¬ Holds s' i f := by
      intro j hj hji hii
      have hjs := key j hj hji
      rcases (hH i f).mp hii with ⟨_, h3 | h3⟩ | ⟨h3, _⟩
      · exact hji (hinv.forkExcl f j i hjs h3.1)
      · have hfree := (hE.lock f h3).1
        have hl := (hinv.forkLocked f).mpr ⟨j, hjs⟩
        rw [hfree] at hl; cases hl
      · exact h3 rfl
    by_cases e1 : j1 = i
    · by_cases e2 : j2 = i
      · rw [e1, e2]
      · subst e1; exact absurd h1 (own j2 h2 e2)
    · by_cases e2 : j2 = i
      · subst e2; exact absurd h2 (own j1 h1 e1)
      · exact hinv.forkExcl f j1 j2 (key j1 h1 e1) (key j2 h2 e2)
  · -- orderLocked
    have hS : ∀ j, (∃ g, s'.threads j = some g ∧ inOrderSection g.pc) ↔
        (j = i ∧ ((inOrderSection pc ∧ a ≠ .orderUnlock) ∨ a = .orderLock)) ∨
          (j ≠ i ∧ ∃ g, s.threads j = some g ∧ inOrderSection g.pc) := by
      intro j
      rw [hth]
      by_cases hji : j = i
      · subst hji; simp [inOrderSection_next k ha]
      · simp [Function.update_noteq hji, hji]
    have hcur : ∀ j, (∃ g, s.threads j = some g ∧ inOrderSection g.pc) → j = i →
        inOrderSection pc := by
      rintro j ⟨g, h1, h2⟩ rfl
      rw [hg] at h1; cases h1; exact h2
    by_cases hl : a = .orderLock
    · obtain ⟨_, h1⟩ := hE.orderLock hl
      rw [h1]
      simp only [true_iff]
      exact ⟨i, (hS i).mpr (Or.inl ⟨rfl, Or.inr hl⟩)⟩
    · by_cases hu : a = .orderUnlock
      · obtain ⟨_, h1⟩ := hE.orderUnlock hu
        rw [h1]
        simp only [Bool.false_eq_true, false_iff, not_exists]
        intro j g hj
        rcases (hS j).mp ⟨g, hj.1, hj.2⟩ with ⟨_, h2 | h2⟩ | ⟨hji, g2, h2, h3⟩
        · exact h2.2 hu
        · exact hl h2
        · have hown : inOrderSection pc := inOrderSection_of_unlock (hu ▸ ha)
          exact hji (hinv.orderExcl j i g2 ⟨p, pc⟩ h2 hg h3 hown)
      · rw [hE.orderKeep hl hu, hinv.orderLocked]
        constructor
        · rintro ⟨j, g, h1, h2⟩
          by_cases hji : j = i
          · obtain ⟨g', hg'⟩ := (hS j).mpr
              (Or.inl ⟨hji, Or.inl ⟨hcur j ⟨g, h1, h2⟩ hji, hu⟩⟩)
            exact ⟨j, g', hg'⟩
          · obtain ⟨g', hg'⟩ := (hS j).mpr (Or.inr ⟨hji, g, h1, h2⟩)
            exact ⟨j, g', hg'⟩
        · rintro ⟨j, g, h1, h2⟩
          rcases (hS j).mp ⟨g, h1, h2⟩ with ⟨hji, h3 | h3⟩ | ⟨_, g2, h3⟩
          · subst hji; exact ⟨j, ⟨p, pc⟩, hg, h3.1⟩
          · exact absurd h3 hl
          · exact ⟨j, g2, h3⟩
  · -- orderExcl
    intro j1 j2 g1 g2 h1 h2 s1 s2
    rw [hth] at h1 h2
    have own : ∀ j g, s.threads j = some g → inOrderSection g.pc → j ≠ i →
        ¬ inOrderSection (nextPC k pc) := by
      intro j g hj hs hji hn
      rcases (inOrderSection_next k ha).mp hn with h3 | h3
      · exact hji (hinv.orderExcl j i g ⟨p, pc⟩ hj hg hs h3.1)
      · have hfree := (hE.orderLock h3).1
        have hl := hinv.orderLocked.mpr ⟨j, g, hj, hs⟩
        rw [hfree] at hl; cases hl
    by_cases e1 : j1 = i
    · by_cases e2 : j2 = i
      · rw [e1, e2]
      · subst e1
        rw [Function.update_noteq e2] at h2
        simp only [Function.update_same, Option.some.injEq] at h1
        subst h1
        exact absurd s1 (own j2 g2 h2 s2 e2)
    · by_cases e2 : j2 = i
      · subst e2
        rw [Function.update_noteq e1] at h1
        simp only [Function.update_same, Option.some.injEq] at h2
        subst h2
        exact absurd s2 (own j1 g1 h1 s1 e1)
      · rw [Function.update_noteq e1] at h1
        rw [Function.update_noteq e2] at h2
        exact hinv.orderExcl j1 j2 g1 g2 h1 h2 s1 s2
  · -- ledger
    obtain ⟨idxs, hnd, hmem, hled⟩ := hinv.ledger
    have hA : ∀ j, (∃ g, s'.threads j = some g ∧ hasAppended g.pc) ↔
        (j = i ∧ (hasAppended pc ∨ a = .append p.name)) ∨
          (j ≠ i ∧ ∃ g, s.threads j = some g ∧ hasAppended g.pc) := by
      intro j
      rw [hth]
      by_cases hji : j = i
      · subst hji; simp [hasAppended_next k ha]
      · simp [Function.update_noteq hji, hji]
    have hcur : (∃ g, s.threads i = some g ∧ hasAppended g.pc) ↔ hasAppended pc := by
      simp [hg]
    by_cases hap : a = .append p.name
    · have hnot : ¬ hasAppended pc := (hasAppended_cur (hap ▸ ha)).1
      have hni : i ∉ idxs := fun hc => hnot (hcur.mp ((hmem i).mp hc))
      refine ⟨idxs ++ [i], ?_, ?_, ?_⟩
      · rw [List.nodup_append]
        refine ⟨hnd, List.nodup_singleton i, ?_⟩
        intro x hx hx2
        rw [List.mem_singleton] at hx2
        subst hx2
        exact hni hx
      · intro j
        rw [List.mem_append, List.mem_singleton, hmem j, hA j]
        constructor
        · rintro (h1 | h1)
          · by_cases hji : j = i
            · exact Or.inl ⟨hji, Or.inr hap⟩
            · exact Or.inr ⟨hji, h1⟩
          · exact Or.inl ⟨h1, Or.inr hap⟩
        · rintro (⟨h1, _⟩ | ⟨_, h1⟩)
          · exact Or.inr h1
          · exact Or.inl h1
      · have hname : nameAt ps i = p.name := by
          unfold nameAt
          rw [hinv.args i _ hg]
        rw [hE.append p.name hap, hled, List.map_append, List.map_singleton, hname]
    · have hk : ∀ n, a ≠ .append n := by
        intro n hn
        have := (hasAppended_cur (hn ▸ ha)).2
        subst this
        exact hap hn
      refine ⟨idxs, hnd, ?_, ?_⟩
      · intro j
        rw [hmem j, hA j]
        constructor
        · intro h1
          by_cases hji : j = i
          · subst hji; exact Or.inl ⟨rfl, Or.inl (hcur.mp h1)⟩
          · exact Or.inr ⟨hji, h1⟩
        · rintro (⟨h1, h2 | h2⟩ | ⟨_, h1⟩)
          · subst h1; exact hcur.mpr h2
          · exact absurd h2 hap
          · exact h1
      · rw [hE.ledgerKeep hk, hled]
  · -- mainDone
    intro hm
    rw [hE.mainPc] at hm
    have hz := hinv.mainDone hm
    have hd : a ≠ .eatingDone := fun hd => (hE.eatingDone hd).1 hz
    rw [hE.eatingKeep hd]; exact hz

theorem inv_stepMain {ps : List Philosopher} {s s' : State}
    (hinv : Inv ps s) (h : stepMain ps s = .next s') : Inv ps s' := by
  unfold stepMain at h
  cases hm : s.mainPc with
  | launch c =>
    have hc := hinv.launchBound c hm
    have hnone : s.threads c = none := by
      by_contra hne
      have := (hinv.launched c).mp hne
      rw [hm] at this
      exact Nat.lt_irrefl c this
    simp only [hm, List.getElem?_eq_getElem hc] at h
    injection h with h
    subst h
    have hcount : launchedCount ps.length (launchEntry ps.length (c + 1)) = c + 1 := by
      unfold launchEntry
      split
      · rfl
      · simp only [launchedCount]; omega
    have hH : ∀ j f, Holds { s with
        mainPc := launchEntry ps.length (c + 1)
        threads := Function.update s.threads c (some ⟨ps[c], .seatedDone⟩) } j f ↔
          Holds s j f := by
      intro j f
      unfold Holds
      by_cases hj : j = c
      · subst hj; simp [hnone, holdsFork]
      · simp [Function.update_noteq hj]
    have hT : ∀ j g, Function.update s.threads c (some ⟨ps[c], PC.seatedDone⟩) j = some g →
        (j = c ∧ g = ⟨ps[c], .seatedDone⟩) ∨ (j ≠ c ∧ s.threads j = some g) := by
      intro j g hj
      by_cases hjc : j = c
      · subst hjc
        simp only [Function.update_same, Option.some.injEq] at hj
        exact Or.inl ⟨rfl, hj.symm⟩
      · rw [Function.update_noteq hjc] at hj
        exact Or.inr ⟨hjc, hj⟩
    refine ⟨?_, ?_, ?_, ?_, ?_, ?_, ?_, ?_, ?_, ?_, ?_, ?_, ?_⟩
    · intro j g hj
      rcases hT j g hj with ⟨rfl, rfl⟩ | ⟨_, h1⟩
      · exact List.getElem?_eq_getElem hc
      · exact hinv.args j g h1
    · intro j
      simp only [hcount]
      by_cases hj : j = c
      · subst hj; simp
      · simp only [Function.update_noteq hj, hinv.launched j, hm, launchedCount]
        omega
    · intro c' hc'
      simp only [launchEntry] at hc'
      split at hc'
      · injection hc' with hc'; omega
      · cases hc'
    · have hsum := sumThreads_update_lt notSeated s.threads c
        (some ⟨ps[c], .seatedDone⟩) _ hc
      rw [hnone] at hsum
      simp only [notSeated, if_true] at hsum
      have := hinv.seated
      show s.seatedWG = sumThreads notSeated
        (Function.update s.threads c (some ⟨ps[c], .seatedDone⟩)) ps.length
      omega
    · have hsum := sumThreads_update_lt notReturned s.threads c
        (some ⟨ps[c], .seatedDone⟩) _ hc
      rw [hnone] at hsum
      simp only [notReturned, reduceCtorEq, if_false] at hsum
      have := hinv.eating
      show s.eatingWG = sumThreads notReturned
        (Function.update s.threads c (some ⟨ps[c], .seatedDone⟩)) ps.length
      omega
    · intro j g hj hp
      rcases hT j g hj with ⟨rfl, rfl⟩ | ⟨_, h1⟩
      · exact absurd hp (by simp [pastBarrier])
      · exact hinv.barrier j g h1 hp
    · exact hinv.forkKeys
    · intro f
      simp only [hH]
      exact hinv.forkLocked f
    · intro f j1 j2 h1 h2
      rw [hH] at h1 h2
      exact hinv.forkExcl f j1 j2 h1 h2
    · show s.orderMutex = true ↔ _
      rw [hinv.orderLocked]
      constructor
      · rintro ⟨j, g, h1, h2⟩
        have hj : j ≠ c := by
          rintro rfl; rw [hnone] at h1; cases h1
        exact ⟨j, g, by simp only [Function.update_noteq hj]; exact h1, h2⟩
      · rintro ⟨j, g, h1, h2⟩
        rcases hT j g h1 with ⟨rfl, rfl⟩ | ⟨_, h3⟩
        · exact absurd h2 (by simp [inOrderSection])
        · exact ⟨j, g, h3, h2⟩
    · intro j1 j2 g1 g2 h1 h2 s1 s2
      rcases hT j1 g1 h1 with ⟨rfl, rfl⟩ | ⟨_, h3⟩
      · exact absurd s1 (by simp [inOrderSection])
      · rcases hT j2 g2 h2 with ⟨rfl, rfl⟩ | ⟨_, h4⟩
        · exact absurd s2 (by simp [inOrderSection])
        · exact hinv.orderExcl j1 j2 g1 g2 h3 h4 s1 s2
    · obtain ⟨idxs, hnd, hmem, hled⟩ := hinv.ledger
      refine ⟨idxs, hnd, ?_, hled⟩
      intro j
      rw [hmem j]
      constructor
      · rintro ⟨g, h1, h2⟩
        have hj : j ≠ c := by
          rintro rfl; rw [hnone] at h1; cases h1
        exact ⟨g, by simp only [Function.update_noteq hj]; exact h1, h2⟩
      · rintro ⟨g, h1, h2⟩
        rcases hT j g h1 with ⟨rfl, rfl⟩ | ⟨_, h3⟩
        · exact absurd h2 (by simp [hasAppended])
        · exact ⟨g, h3, h2⟩
    · intro hr
      simp only [launchEntry] at hr
      split at hr <;> cases hr
  | wait =>
    simp only [hm] at h
    split at h
    · rename_i hz
      injection h with h
      subst h
      refine ⟨hinv.args, ?_, ?_, hinv.seated, hinv.eating, hinv.barrier, hinv.forkKeys,
        hinv.forkLocked, hinv.forkExcl, hinv.orderLocked, hinv.orderExcl, hinv.ledger, ?_⟩
      · intro j
        have := hinv.launched j
        rw [hm] at this
        exact this
      · intro c hc; cases hc
      · intro _; exact hz
    · cases h
  | returned =>
    simp [hm] at h

theorem inv_step {ps : List Philosopher} {k : Nat} {s s' : State} {t : Thread}
    (hwf : WellFormed ps) (hinv : Inv ps s) (h : step ps k s t = .next s') : Inv ps s' := by
  cases t with
  | main => exact inv_stepMain hinv h
  | phil i => exact inv_stepPhil hwf hinv h

theorem inv_reachable {ps : List Philosopher} {k : Nat} {s : State}
    (hwf : WellFormed ps) (hr : Reachable ps k s) : Inv ps s := by
  induction hr with
  | start => exact inv_start ps
  | step t _ hs ih => exact inv_step hwf ih hs

theorem reachable_run {ps : List Philosopher} {k : Nat} (sched : List Thread) :
    ∀ {s : State}, Reachable ps k s → Reachable ps k (run ps k sched s) := by
  induction sched with
  | nil => intro s hr; exact hr
  | cons t ts ih =>
    intro s hr
    simp only [run]
    cases hs : step ps k s t with
    | next s' => exact ih (Reachable.step t hr hs)
    | blocked => exact ih hr
    | fatal f => exact ih hr
    | idle => exact ih hr

/-! ## Progress -/

theorem canStep_phil {ps : List Philosopher} {k : Nat} {s : State} {i : Nat} {g : Goroutine}
    (a : Action) (s1 : State) (hg : s.threads i = some g)
    (ha : actionAt g.philosopher g.pc = some a) (he : exec s a = .next s1) :
    CanStep ps k s (.phil i) :=
  ⟨advance k i g s1, by simp only [step, stepPhil, hg, ha, he]⟩

theorem wellFormed_forks {ps : List Philosopher} (hwf : WellFormed ps) {i : Nat} {p : Philosopher}
    (h : ps[i]? = some p) :
    (0 ≤ p.leftFork ∧ p.leftFork < ps.length) ∧ (0 ≤ p.rightFork ∧ p.rightFork < ps.length) :=
  ⟨(hwf p (List.getElem?_mem h)).1, (hwf p (List.getElem?_mem h)).2.1⟩

theorem fork_exists {ps : List Philosopher} {s : State} (hinv : Inv ps s) {f : Int}
    (h0 : 0 ≤ f) (h1 : f < ps.length) : ∃ b, s.forks f = some b := by
  have := (hinv.forkKeys f).mpr ⟨h0, h1⟩
  cases hf : s.forks f with
  | none => exact absurd hf this
  | some b => exact ⟨b, rfl⟩

theorem holds_locked {ps : List Philosopher} {s : State} (hinv : Inv ps s) {i : Nat}
    {p : Philosopher} {pc : PC} {f : Int} (hg : s.threads i = some ⟨p, pc⟩)
    (hh : holdsFork p pc f) : s.forks f = some true :=
  (hinv.forkLocked f).mpr ⟨i, ⟨p, pc⟩, hg, hh⟩

/-- A goroutine whose next statement cannot block is able to step. -/
theorem progress_nonblocking {ps : List Philosopher} {k : Nat} {s : State}
    (hinv : Inv ps s) {i : Nat} {p : Philosopher} {pc : PC}
    (hg : s.threads i = some ⟨p, pc⟩)
    (hpc : pc = .seatedDone ∨ (∃ t, pc = .eat t) ∨ (∃ t, pc = .think t) ∨
      (∃ t, pc = .unlockLeft t) ∨ (∃ t, pc = .unlockRight t) ∨ pc = .append ∨
      pc = .orderUnlock ∨ pc = .eatingDone) :
    CanStep ps k s (.phil i) := by
  have hi := args_lt hinv hg
  rcases hpc with rfl | ⟨t, rfl⟩ | ⟨t, rfl⟩ | ⟨t, rfl⟩ | ⟨t, rfl⟩ | rfl | rfl | rfl
  · have hge := sumThreads_ge notSeated s.threads _ i hi
    rw [hg, ← hinv.seated] at hge
    simp only [notSeated, if_true] at hge
    refine canStep_phil .seatedDone
      { s with seatedWG := s.seatedWG - 1 } hg rfl ?_
    simp only [exec]; rw [if_neg (by omega)]
  · exact canStep_phil (.sleep singleEatTime) s hg rfl rfl
  · exact canStep_phil (.sleep thinkTime) s hg rfl rfl
  · have hl := holds_locked hinv hg (f := p.leftFork) (Or.inl rfl)
    refine canStep_phil (.unlock p.leftFork)
      { s with forks := Function.update s.forks p.leftFork (some false) } hg rfl ?_
    simp only [exec, hl]
  · have hl := holds_locked hinv hg (f := p.rightFork) rfl
    refine canStep_phil (.unlock p.rightFork)
      { s with forks := Function.update s.forks p.rightFork (some false) } hg rfl ?_
    simp only [exec, hl]
  · exact canStep_phil (.append p.name)
      { s with orderFinished := s.orderFinished ++ [p.name] } hg rfl rfl
  · have hl := hinv.orderLocked.mpr ⟨i, _, hg, trivial⟩
    refine canStep_phil .orderUnlock
      { s with orderMutex := false } hg rfl ?_
    simp only [exec, hl, if_true]
  · have hge := sumThreads_ge notReturned s.threads _ i hi
    rw [hg, ← hinv.eating] at hge
    simp only [notReturned, reduceCtorEq, if_false] at hge
    refine canStep_phil .eatingDone
      { s with eatingWG := s.eatingWG - 1 } hg rfl ?_
    simp only [exec]; rw [if_neg (by omega)]

/-- A goroutine waiting for `orderMutex`: the mutex is free, or its owner can step. -/
theorem progress_orderLock {ps : List Philosopher} {k : Nat} {s : State}
    (hinv : Inv ps s) {i : Nat} {p : Philosopher}
    (hg : s.threads i = some ⟨p, .orderLock⟩) :
    ∃ j, j < ps.length ∧ CanStep ps k s (.phil j) := by
  cases hm : s.orderMutex with
  | false =>
    refine ⟨i, args_lt hinv hg, canStep_phil .orderLock
      { s with orderMutex := true } hg rfl ?_⟩
    simp only [exec, hm]; rfl
  | true =>
    obtain ⟨j, ⟨q, pcj⟩, hj, hsec⟩ := hinv.orderLocked.mp hm
    refine ⟨j, args_lt hinv hj, progress_nonblocking hinv hj ?_⟩
    cases pcj <;> simp [inOrderSection] at hsec ⊢

/-- A goroutine waiting at the barrier, once every goroutine has been launched:
the barrier is open, or somebody who is not seated yet can step. -/
theorem progress_seatedWait {ps : List Philosopher} {k : Nat} {s : State}
    (hinv : Inv ps s) (hall : ∀ j, j < ps.length → s.threads j ≠ none)
    {i : Nat} {p : Philosopher} (hg : s.threads i = some ⟨p, .seatedWait⟩) :
    ∃ j, j < ps.length ∧ CanStep ps k s (.phil j) := by
  by_cases hz : s.seatedWG = 0
  · refine ⟨i, args_lt hinv hg, canStep_phil (.seatedWait) s hg rfl ?_⟩
    simp only [exec, hz, if_true]
  · have hpos : 0 < sumThreads notSeated s.threads ps.length := by
      rw [← hinv.seated]; omega
    obtain ⟨j, hj, hw⟩ := sumThreads_pos notSeated s.threads _ hpos
    cases hgj : s.threads j with
    | none => exact absurd hgj (hall j hj)
    | some g =>
      obtain ⟨q, pcj⟩ := g
      rw [hgj] at hw
      simp only [notSeated] at hw
      have hpc : pcj = .seatedDone := by
        by_contra hne; rw [if_neg hne] at hw; exact Nat.lt_irrefl 0 hw
      subst hpc
      exact ⟨j, hj, progress_nonblocking hinv hgj (Or.inl rfl)⟩

/-- The fork a goroutine locks second is numbered above the one it locks first. -/
theorem holdsFork_lockSecond {p : Philosopher} {t : Nat} {f : Int}
    (hne : p.leftFork ≠ p.rightFork) (hh : holdsFork p (.lockSecond t) f) :
    ∃ f', actionAt p (.lockSecond t) = some (.lock f') ∧ f < f' := by
  simp only [holdsFork] at hh
  simp only [actionAt]
  split at hh
  · rename_i hgt
    rw [if_pos hgt]
    exact ⟨p.leftFork, rfl, by omega⟩
  · rename_i hgt
    rw [if_neg hgt]
    exact ⟨p.rightFork, rfl, by omega⟩

theorem lock_target {ps : List Philosopher} (hwf : WellFormed ps) {i : Nat} {p : Philosopher}
    (hp : ps[i]? = some p) {pc : PC} {f : Int} (ha : actionAt p pc = some (.lock f)) :
    0 ≤ f ∧ f < ps.length := by
  obtain ⟨hl, hr⟩ := wellFormed_forks hwf hp
  cases pc <;> simp only [actionAt] at ha <;> (try split at ha) <;> cases ha <;>
    first | exact hl | exact hr

/-- A goroutine waiting for a fork: follow the chain of owners upwards in the
fork numbering until somebody can step. -/
theorem progress_lock {ps : List Philosopher} {k : Nat} {s : State}
    (hwf : WellFormed ps) (hinv : Inv ps s) :
    ∀ (d : Nat) (f : Int), (ps.length : Int) ≤ f + d →
      ∀ (i : Nat) (p : Philosopher) (pc : PC), s.threads i = some ⟨p, pc⟩ →
        actionAt p pc = some (.lock f) → ∃ j, j < ps.length ∧ CanStep ps k s (.phil j) := by
  intro d
  induction d with
  | zero =>
    intro f hf i p pc hg ha
    have := lock_target hwf (hinv.args i _ hg) ha
    simp only [Nat.cast_zero, add_zero] at hf
    omega
  | succ d ih =>
    intro f hf i p pc hg ha
    obtain ⟨h0, h1⟩ := lock_target hwf (hinv.args i _ hg) ha
    obtain ⟨b, hb⟩ := fork_exists hinv h0 h1
    cases b with
    | false =>
      refine ⟨i, args_lt hinv hg, canStep_phil _
        { s with forks := Function.update s.forks f (some true) } hg ha ?_⟩
      simp only [exec, hb]
    | true =>
      obtain ⟨j, ⟨q, pcj⟩, hj, hh⟩ := (hinv.forkLocked f).mp hb
      have hjlt := args_lt hinv hj
      cases pcj with
      | lockSecond t =>
        obtain ⟨f', ha', hlt⟩ :=
          holdsFork_lockSecond (wellFormed_ne hwf (hinv.args j _ hj)) hh
        exact ih f' (by push_cast at hf ⊢; omega) j q _ hj ha'
      | eat t => exact ⟨j, hjlt, progress_nonblocking hinv hj (by simp)⟩
      | think t => exact ⟨j, hjlt, progress_nonblocking hinv hj (by simp)⟩
      | unlockLeft t => exact ⟨j, hjlt, progress_nonblocking hinv hj (by simp)⟩
      | unlockRight t => exact ⟨j, hjlt, progress_nonblocking hinv hj (by simp)⟩
      | _ => exact absurd hh (by simp [holdsFork])

/-- Once all goroutines are launched, an unfinished philosopher implies that
some philosopher can step. -/
theorem progress_phil {ps : List Philosopher} {k : Nat} {s : State}
    (hwf : WellFormed ps) (hinv : Inv ps s)
    (hall : ∀ j, j < ps.length → s.threads j ≠ none)
    {i : Nat} (hi : i < ps.length) (hun : ¬ Finished s i) :
    ∃ j, j < ps.length ∧ CanStep ps k s (.phil j) := by
  cases hg : s.threads i with
  | none => exact absurd hg (hall i hi)
  | some g =>
    obtain ⟨p, pc⟩ := g
    cases pc with
    | seatedDone => exact ⟨i, hi, progress_nonblocking hinv hg (by simp)⟩
    | seatedWait => exact progress_seatedWait hinv hall hg
    | lockFirst t =>
      cases ha : actionAt p (.lockFirst t) with
      | none => simp only [actionAt] at ha; split at ha <;> cases ha
      | some a =>
        have hf : ∃ f, a = .lock f := by
          simp only [actionAt] at ha; split at ha <;> cases ha <;> exact ⟨_, rfl⟩
        obtain ⟨f, rfl⟩ := hf
        have hb := lock_target hwf (hinv.args i _ hg) ha
        exact progress_lock hwf hinv ps.length f (by omega) i p _ hg ha
    | lockSecond t =>
      cases ha : actionAt p (.lockSecond t) with
      | none => simp only [actionAt] at ha; split at ha <;> cases ha
      | some a =>
        have hf : ∃ f, a = .lock f := by
          simp only [actionAt] at ha; split at ha <;> cases ha <;> exact ⟨_, rfl⟩
        obtain ⟨f, rfl⟩ := hf
        have hb := lock_target hwf (hinv.args i _ hg) ha
        exact progress_lock hwf hinv ps.length f (by omega) i p _ hg ha
    | eat t => exact ⟨i, hi, progress_nonblocking hinv hg (by simp)⟩
    | think t => exact ⟨i, hi, progress_nonblocking hinv hg (by simp)⟩
    | unlockLeft t => exact ⟨i, hi, progress_nonblocking hinv hg (by simp)⟩
    | unlockRight t => exact ⟨i, hi, progress_nonblocking hinv hg (by simp)⟩
    | orderLock => exact progress_orderLock hinv hg
    | append => exact ⟨i, hi, progress_nonblocking hinv hg (by simp)⟩
    | orderUnlock => exact ⟨i, hi, progress_nonblocking hinv hg (by simp)⟩
    | eatingDone => exact ⟨i, hi, progress_nonblocking hinv hg (by simp)⟩
    | returned => exact absurd ⟨_, hg, rfl⟩ hun

/-- Either `startDine` can step, or all goroutines are launched and the
philosophers keep going until `startDine` may return. -/
theorem progress_main {ps : List Philosopher} {k : Nat} {s : State}
    (hwf : WellFormed ps) (hinv : Inv ps s) (hm : s.mainPc ≠ .returned) :
    CanStep ps k s .main ∨
      ((∀ j, j < ps.length → s.threads j ≠ none) ∧
        ∃ j, j < ps.length ∧ CanStep ps k s (.phil j)) := by
  cases hpc : s.mainPc with
  | launch c =>
    have hc := hinv.launchBound c hpc
    left
    unfold CanStep
    simp only [step, stepMain, hpc, List.getElem?_eq_getElem hc]
    exact ⟨_, rfl⟩
  | wait =>
    have hall : ∀ j, j < ps.length → s.threads j ≠ none := by
      intro j hj
      exact (hinv.launched j).mpr (by rw [hpc]; exact hj)
    by_cases hz : s.eatingWG = 0
    · left
      unfold CanStep
      simp only [step, stepMain, hpc, hz, if_true]
      exact ⟨_, rfl⟩
    · right
      refine ⟨hall, ?_⟩
      have hpos : 0 < sumThreads notReturned s.threads ps.length := by
        rw [← hinv.eating]; omega
      obtain ⟨i, hi, hw⟩ := sumThreads_pos notReturned s.threads _ hpos
      refine progress_phil hwf hinv hall hi ?_
      rintro ⟨g, hg, hret⟩
      rw [hg] at hw
      simp [notReturned, hret] at hw
  | returned => exact absurd hpc hm

theorem stepPhil_fatal {k : Nat} {s : State} {i : Nat} {f : Fault}
    (h : stepPhil k s i = .fatal f) :
    ∃ g a, s.threads i = some g ∧ actionAt g.philosopher g.pc = some a ∧ exec s a = .fatal f := by
  unfold stepPhil at h
  cases hg : s.threads i with
  | none => simp [hg] at h
  | some g =>
    cases ha : actionAt g.philosopher g.pc with
    | none => simp [hg, ha] at h
    | some a =>
      cases he : exec s a with
      | next s1 => simp [hg, ha, he] at h
      | blocked => simp [hg, ha, he] at h
      | fatal f' =>
        simp only [hg, ha, he] at h
        injection h with h
        subst h
        exact ⟨g, a, rfl, ha, he⟩
      | idle => simp [hg, ha, he] at h

/-- No reachable statement of a well-formed table faults. -/
theorem step_not_fatal {ps : List Philosopher} {k : Nat} {s : State}
    (hwf : WellFormed ps) (hinv : Inv ps s) (t : Thread) (f : Fault) :
    step ps k s t ≠ .fatal f := by
  intro h
  cases t with
  | main =>
    simp only [step, stepMain] at h
    cases hpc : s.mainPc with
    | launch c =>
      have hc := hinv.launchBound c hpc
      simp [hpc, List.getElem?_eq_getElem hc] at h
    | wait =>
      simp only [hpc] at h
      split at h <;> cases h
    | returned => simp [hpc] at h
  | phil i =>
    obtain ⟨⟨p, pc⟩, a, hg, ha, he⟩ := stepPhil_fatal h
    have hi := args_lt hinv hg
    have hp := hinv.args i _ hg
    obtain ⟨hl, hr⟩ := wellFormed_forks hwf hp
    obtain ⟨bl, hbl⟩ := fork_exists hinv hl.1 hl.2
    obtain ⟨br, hbr⟩ := fork_exists hinv hr.1 hr.2
    have hseat := sumThreads_ge notSeated s.threads _ i hi
    have heat := sumThreads_ge notReturned s.threads _ i hi
    rw [hg, ← hinv.seated] at hseat
    rw [hg, ← hinv.eating] at heat
    cases pc with
    | seatedDone =>
      cases ha
      simp only [notSeated, if_true] at hseat
      simp only [exec] at he
      rw [if_neg (by omega)] at he; cases he
    | seatedWait => cases ha; simp only [exec] at he; split at he <;> cases he
    | lockFirst t =>
      simp only [actionAt] at ha
      split at ha <;> cases ha <;> simp only [exec] at he
      · rw [hbr] at he; cases br <;> cases he
      · rw [hbl] at he; cases bl <;> cases he
    | lockSecond t =>
      simp only [actionAt] at ha
      split at ha <;> cases ha <;> simp only [exec] at he
      · rw [hbl] at he; cases bl <;> cases he
      · rw [hbr] at he; cases br <;> cases he
    | eat t => cases ha; cases he
    | think t => cases ha; cases he
    | unlockLeft t =>
      cases ha
      simp only [exec] at he
      rw [holds_locked hinv hg (f := p.leftFork) (Or.inl rfl)] at he; cases he
    | unlockRight t =>
      cases ha
      simp only [exec] at he
      rw [holds_locked hinv hg (f := p.rightFork) rfl] at he; cases he
    | orderLock => cases ha; simp only [exec] at he; split at he <;> cases he
    | append => cases ha; cases he
    | orderUnlock =>
      cases ha
      simp only [exec] at he
      rw [hinv.orderLocked.mpr ⟨i, _, hg, trivial⟩] at he
      simp at he
    | eatingDone =>
      cases ha
      simp only [notReturned, reduceCtorEq, if_false] at heat
      simp only [exec] at he
      rw [if_neg (by omega)] at he; cases he
    | returned => cases ha

theorem pcMeasure_loopEntry (k t : Nat) : pcMeasure k (loopEntry t) ≤ 4 + 6 * t := by
  unfold loopEntry
  split
  · simp only [pcMeasure]; omega
  · simp only [pcMeasure]; omega

theorem pcMeasure_next (k : Nat) {p : Philosopher} {pc : PC} {a : Action}
    (ha : actionAt p pc = some a) : pcMeasure k (nextPC k pc) < pcMeasure k pc := by
  cases pc with
  | seatedWait =>
    have := pcMeasure_loopEntry k k
    show pcMeasure k (loopEntry k) < 11 + 6 * k
    omega
  | unlockRight t =>
    have := pcMeasure_loopEntry k (t - 1)
    show pcMeasure k (loopEntry (t - 1)) < 5 + 6 * (t - 1)
    omega
  | returned => cases ha
  | _ => simp only [nextPC, pcMeasure]; omega

/-- Every step strictly decreases `stateMeasure`. -/
theorem step_measure {ps : List Philosopher} {k : Nat} {s s' : State} {t : Thread}
    (hinv : Inv ps s) (h : step ps k s t = .next s') :
    stateMeasure ps k s' < stateMeasure ps k s := by
  cases t with
  | main =>
    simp only [step, stepMain] at h
    cases hpc : s.mainPc with
    | launch c =>
      have hc := hinv.launchBound c hpc
      have hnone : s.threads c = none := by
        by_contra hne
        have := (hinv.launched c).mp hne
        rw [hpc] at this
        exact Nat.lt_irrefl c this
      simp only [hpc, List.getElem?_eq_getElem hc] at h
      injection h with h
      subst h
      have hsum := sumThreads_update_lt (threadMeasure k) s.threads c
        (some ⟨ps[c], .seatedDone⟩) _ hc
      rw [hnone] at hsum
      simp only [threadMeasure, pcMeasure] at hsum
      have hmain : mainMeasure (launchEntry ps.length (c + 1)) ≤ 2 := by
        unfold launchEntry; split <;> simp [mainMeasure]
      show mainMeasure (launchEntry ps.length (c + 1)) +
          sumThreads (threadMeasure k)
            (Function.update s.threads c (some ⟨ps[c], .seatedDone⟩)) ps.length <
        mainMeasure s.mainPc + sumThreads (threadMeasure k) s.threads ps.length
      have h2 : mainMeasure s.mainPc = 2 := by rw [hpc]; rfl
      omega
    | wait =>
      simp only [hpc] at h
      split at h
      · injection h with h
        subst h
        have h1 : mainMeasure s.mainPc = 1 := by rw [hpc]; rfl
        show 0 + sumThreads (threadMeasure k) s.threads ps.length <
          mainMeasure s.mainPc + sumThreads (threadMeasure k) s.threads ps.length
        omega
      · cases h
    | returned => simp [hpc] at h
  | phil i =>
    obtain ⟨p, pc, a, hg, ha, hth, hE⟩ := stepPhil_effect h
    have hi := args_lt hinv hg
    have hsum := sumThreads_update_lt (threadMeasure k) s.threads i
      (some ⟨p, nextPC k pc⟩) _ hi
    rw [hg] at hsum
    simp only [threadMeasure] at hsum
    have := pcMeasure_next k ha
    unfold stateMeasure
    rw [hth, hE.mainPc]
    omega

theorem cyclic_wellFormed {ps : List Philosopher} (hN : 2 ≤ ps.length) (hc : Cyclic ps) :
    WellFormed ps := by
  intro p hp
  obtain ⟨i, hi⟩ := List.mem_iff_get.mp hp
  obtain ⟨hl, hr⟩ := hc i
  rw [hi] at hl hr
  have hilt : i.val < ps.length := i.isLt
  have hpos : (0 : Int) < (ps.length : Int) := by omega
  have h1 : 0 ≤ ((i.val : Int) - 1) % (ps.length : Int) := Int.emod_nonneg _ (by omega)
  have h2 : ((i.val : Int) - 1) % (ps.length : Int) < (ps.length : Int) :=
    Int.emod_lt_of_pos _ hpos
  refine ⟨by rw [hl]; exact ⟨h1, h2⟩, by rw [hr]; omega, ?_⟩
  rw [hl, hr]
  rcases Nat.eq_zero_or_pos i.val with h0 | h0
  · rw [h0]
    have : ((0 : Nat) : Int) - 1 = ((ps.length : Int) - 1) + (-1) * (ps.length : Int) := by
      push_cast; ring
    rw [this, Int.add_mul_emod_self, Int.emod_eq_of_lt (by omega) (by omega)]
    push_cast; omega
  · rw [Int.emod_eq_of_lt (by omega) (by omega)]
    omega

/-! ## Facts about the program's own table -/

theorem philosophers_wellFormed : WellFormed philosophers := by decide

theorem reachable_stateAfter (sched : List Thread) :
    Reachable philosophers timesEachPhilosopherEats (stateAfter sched) :=
  reachable_run sched Reachable.start

theorem range_map_nameAt (ps : List Philosopher) :
    (List.range ps.length).map (nameAt ps) = ps.map Philosopher.name := by
  apply List.ext_getElem
  · simp
  · intro i h1 h2
    simp only [List.length_map, List.length_range] at h1
    simp [nameAt, List.getElem?_eq_getElem h1]

theorem finished_of_returned {ps : List Philosopher} {s : State} (hinv : Inv ps s)
    (hm : s.mainPc = .returned) : ∀ i, i < ps.length → Finished s i := by
  intro i hi
  have hz := hinv.mainDone hm
  rw [hinv.eating] at hz
  have hw := sumThreads_eq_zero notReturned s.threads _ hz i hi
  cases hg : s.threads i with
  | none => rw [hg] at hw; simp [notReturned] at hw
  | some g =>
    rw [hg] at hw
    simp only [notReturned] at hw
    refine ⟨g, hg, ?_⟩
    by_contra hne
    rw [if_neg hne] at hw
    cases hw

/-- Once every philosopher has returned, the ledger is a permutation of the names. -/
theorem ledger_perm {ps : List Philosopher} {s : State} (hinv : Inv ps s)
    (hall : ∀ i, i < ps.length → Finished s i) :
    s.orderFinished.Perm (ps.map Philosopher.name) := by
  obtain ⟨idxs, hnd, hmem, hled⟩ := hinv.ledger
  have hperm : idxs.Perm (List.range ps.length) := by
    rw [List.perm_ext_iff_of_nodup hnd (List.nodup_range _)]
    intro i
    rw [hmem i, List.mem_range]
    constructor
    · rintro ⟨g, hg, _⟩
      exact args_lt hinv hg
    · intro hi
      obtain ⟨g, hg, hret⟩ := hall i hi
      exact ⟨g, hg, by rw [hret]; trivial⟩
  rw [hled, ← range_map_nameAt]
  exact hperm.map _

theorem seated_of_zero {ps : List Philosopher} {s : State} (hinv : Inv ps s)
    (hz : s.seatedWG = 0) : ∀ j, j < ps.length → Seated s j := by
  intro j hj
  rw [hinv.seated] at hz
  have hw := sumThreads_eq_zero notSeated s.threads _ hz j hj
  cases hg : s.threads j with
  | none => rw [hg] at hw; simp [notSeated] at hw
  | some g =>
    rw [hg] at hw
    simp only [notSeated] at hw
    refine ⟨g, hg, ?_⟩
    intro he
    rw [if_pos he] at hw
    cases hw

theorem pastBarrier_of_holdsFork {p : Philosopher} {pc : PC} {f : Int}
    (h : holdsFork p pc f) : pastBarrier pc := by
  cases pc <;> simp [holdsFork] at h <;> trivial

theorem pastBarrier_of_lock {p : Philosopher} {pc : PC} {f : Int}
    (h : actionAt p pc = some (.lock f)) : pastBarrier pc := by
  cases pc <;> simp [actionAt] at h <;> trivial

/-- One round of `diningProblem`, from any value of `timesToEat`. -/
theorem traceFrom_round (k : Nat) (p : Philosopher) (t : Nat) :
    traceFrom k p 6 (.lockFirst t) =
      [.lock (min p.leftFork p.rightFork), .lock (max p.leftFork p.rightFork),
        .sleep singleEatTime, .sleep thinkTime, .unlock p.leftFork, .unlock p.rightFork] := by
  simp only [traceFrom, actionAt, nextPC]
  by_cases h : p.leftFork > p.rightFork
  · simp only [if_pos h, min_eq_right (le_of_lt h), max_eq_left (le_of_lt h)]
  · simp only [if_neg h, min_eq_left (not_lt.mp h), max_eq_right (not_lt.mp h)]

/-! ## C1: deadlock freedom -/

/-- C1. Deadlock freedom.  For every table of `N ≥ 2` philosophers arranged
like the program's (left fork `(i - 1) mod N`, right fork `i`) and every
number `k` of rounds (in particular every `k ≥ 1`), no reachable state is
stuck: if some philosopher has not finished, then a philosopher can step or
`startDine` is still launching goroutines and can step; once all goroutines
are launched it is a philosopher that can step; as long as `startDine` has not
returned some thread can step; no step faults; and every step strictly
decreases `stateMeasure`, so no run goes on forever. -/
theorem deadlock_freedom (ps : List Philosopher) (k : Nat) (hN : 2 ≤ ps.length)
    (hc : Cyclic ps) (s : State) (hr : Reachable ps k s) :
    ((∃ i, i < ps.length ∧ ¬ Finished s i) →
        (∃ j, j < ps.length ∧ CanStep ps k s (.phil j)) ∨
          ((∃ c, s.mainPc = .launch c) ∧ CanStep ps k s .main)) ∧
    ((∀ j, j < ps.length → s.threads j ≠ none) → (∃ i, i < ps.length ∧ ¬ Finished s i) →
        ∃ j, j < ps.length ∧ CanStep ps k s (.phil j)) ∧
    (s.mainPc ≠ .returned → ∃ t, CanStep ps k s t) ∧
    (∀ t f, step ps k s t ≠ .fatal f) ∧
    (∀ t s', step ps k s t = .next s' → stateMeasure ps k s' < stateMeasure ps k s) := by
  have hwf := cyclic_wellFormed hN hc
  have hinv := inv_reachable hwf hr
  refine ⟨?_, ?_, ?_, ?_, ?_⟩
  · rintro ⟨i, hi, hun⟩
    cases hpc : s.mainPc with
    | launch c =>
      right
      refine ⟨⟨c, rfl⟩, ?_⟩
      rcases progress_main (k := k) hwf hinv (by rw [hpc]; simp) with h | ⟨hall, _⟩
      · exact h
      · have hc := hinv.launchBound c hpc
        have := (hinv.launched c).mp (hall c hc)
        rw [hpc] at this
        exact absurd this (Nat.lt_irrefl c)
    | wait =>
      left
      have hall : ∀ j, j < ps.length → s.threads j ≠ none := fun j hj =>
        (hinv.launched j).mpr (by rw [hpc]; exact hj)
      exact progress_phil hwf hinv hall hi hun
    | returned =>
      exact absurd (finished_of_returned hinv hpc i hi) hun
  · rintro hall ⟨i, hi, hun⟩
    exact progress_phil hwf hinv hall hi hun
  · intro hm
    rcases progress_main (k := k) hwf hinv hm with h | ⟨_, j, _, h⟩
    · exact ⟨.main, h⟩
    · exact ⟨.phil j, h⟩
  · exact step_not_fatal hwf hinv
  · intro t s' h
    exact step_measure hinv h

/-- C1 at the program's table with three rounds: in the state where
philosophers 1 to 4 hold forks 0 to 3 and philosopher 0 waits for fork 0, some
philosopher can step. -/
theorem deadlock_freedom_witness :
    ∃ j, j < philosophers.length ∧
      CanStep philosophers timesEachPhilosopherEats (stateAfter contended) (.phil j) :=
  (deadlock_freedom philosophers timesEachPhilosopherEats (by decide) (by decide)
    (stateAfter contended) (reachable_stateAfter contended)).2.1
    (by decide) ⟨0, by decide, by decide⟩

/-! ## C2: mutual exclusion -/

/-- C2. Mutual exclusion.  In every reachable state of the program no fork is
held by two different philosophers, and a fork's mutex is locked exactly when
some philosopher holds it. -/
theorem mutual_exclusion (s : State)
    (hr : Reachable philosophers timesEachPhilosopherEats s) :
    (∀ f i j, Holds s i f → Holds s j f → i = j) ∧
      (∀ f, s.forks f = some true ↔ ∃ i, Holds s i f) := by
  have hinv := inv_reachable philosophers_wellFormed hr
  exact ⟨hinv.forkExcl, hinv.forkLocked⟩

/-- C2 in the state where philosophers 1 to 4 hold forks 0 to 3. -/
theorem mutual_exclusion_witness :
    (∀ f i j, Holds (stateAfter contended) i f → Holds (stateAfter contended) j f → i = j) ∧
      (∀ f, (stateAfter contended).forks f = some true ↔ ∃ i, Holds (stateAfter contended) i f) :=
  mutual_exclusion (stateAfter contended) (reachable_stateAfter contended)

/-! ## C3: acquisition policy -/

/-- C3. Acquisition policy.  A philosopher whose forks differ locks, in every
round, the lower-numbered fork first and the higher-numbered one second; in
the program's table philosopher `P0` (forks 4, 0) locks fork 0 and then fork
4, and every other philosopher locks its left fork and then its right fork. -/
theorem acquisition_policy :
    (∀ (p : Philosopher) (k t : Nat), p.leftFork ≠ p.rightFork →
        traceFrom k p 2 (.lockFirst t) =
          [.lock (min p.leftFork p.rightFork), .lock (max p.leftFork p.rightFork)] ∧
        min p.leftFork p.rightFork < max p.leftFork p.rightFork) ∧
    (∀ k t : Nat, philosophers.map (fun p => traceFrom k p 2 (.lockFirst t)) =
        [[.lock 0, .lock 4], [.lock 0, .lock 1], [.lock 1, .lock 2], [.lock 2, .lock 3],
          [.lock 3, .lock 4]]) ∧
    (∀ p ∈ philosophers.tail, ∀ k t : Nat,
        traceFrom k p 2 (.lockFirst t) = [.lock p.leftFork, .lock p.rightFork]) := by
  have key : ∀ (p : Philosopher) (k t : Nat), traceFrom k p 2 (.lockFirst t) =
      [.lock (min p.leftFork p.rightFork), .lock (max p.leftFork p.rightFork)] := by
    intro p k t
    have h := traceFrom_round k p t
    simp only [traceFrom, actionAt, nextPC] at h ⊢
    by_cases hgt : p.leftFork > p.rightFork
    · simp only [if_pos hgt, min_eq_right (le_of_lt hgt), max_eq_left (le_of_lt hgt)]
    · simp only [if_neg hgt, min_eq_left (not_lt.mp hgt), max_eq_right (not_lt.mp hgt)]
  refine ⟨?_, ?_, ?_⟩
  · intro p k t hne
    refine ⟨key p k t, ?_⟩
    rcases lt_or_gt_of_ne hne with h | h
    · rw [min_eq_left (le_of_lt h), max_eq_right (le_of_lt h)]; exact h
    · rw [min_eq_right (le_of_lt h), max_eq_left (le_of_lt h)]; exact h
  · intro k t
    simp only [philosophers, List.map, key]
    decide
  · intro p hp k t
    rw [key]
    revert p
    decide

/-- C3 at philosopher `P0` of the program's table: fork 0 is locked before fork 4. -/
theorem acquisition_policy_witness :
    traceFrom timesEachPhilosopherEats ⟨"P0", 4, 0⟩ 2 (.lockFirst 3) =
        [.lock (min 4 0), .lock (max 4 0)] ∧ min (4 : Int) 0 < max 4 0 :=
  acquisition_policy.1 ⟨"P0", 4, 0⟩ timesEachPhilosopherEats 3 (by decide)

/-! ## C4: ledger completeness -/

/-- C4. Ledger completeness.  `orderFinished` starts empty; in every reachable
state in which `startDine` has returned all philosophers have executed
`philosophersEatingWG.Done()`; and in every reachable state in which all
philosophers have done so, `orderFinished` has exactly `len(philosophers)`
entries, contains every philosopher's name exactly once, and is a permutation
of `P0 .. P4`. -/
theorem ledger_completeness (s : State)
    (hr : Reachable philosophers timesEachPhilosopherEats s) :
    (startDine philosophers).orderFinished = [] ∧
    (s.mainPc = .returned → ∀ i, i < philosophers.length → Finished s i) ∧
    ((∀ i, i < philosophers.length → Finished s i) →
      s.orderFinished.length = philosophers.length ∧
      (∀ p ∈ philosophers, s.orderFinished.count p.name = 1) ∧
      s.orderFinished.Perm ["P0", "P1", "P2", "P3", "P4"]) := by
  have hinv := inv_reachable philosophers_wellFormed hr
  refine ⟨rfl, finished_of_returned hinv, ?_⟩
  intro hall
  have hperm : s.orderFinished.Perm ["P0", "P1", "P2", "P3", "P4"] := ledger_perm hinv hall
  refine ⟨hperm.length_eq, ?_, hperm⟩
  intro p hp
  rw [hperm.count_eq]
  revert p
  decide

/-- C4 at the end of the run in which the philosophers eat one after the
other: `startDine` has returned and the ledger is a permutation of the names. -/
theorem ledger_completeness_witness :
    (stateAfter sequential).mainPc = .returned ∧
      (stateAfter sequential).orderFinished.length = philosophers.length ∧
      (∀ p ∈ philosophers, (stateAfter sequential).orderFinished.count p.name = 1) ∧
      (stateAfter sequential).orderFinished.Perm ["P0", "P1", "P2", "P3", "P4"] :=
  have h := ledger_completeness (stateAfter sequential) (reachable_stateAfter sequential)
  ⟨by decide, h.2.2 (h.2.1 (by decide))⟩

/-! ## C5: barrier correctness -/

/-- C5. Barrier correctness.  In every reachable state of the program, if some
philosopher is past `philosophersSeated.Wait()`, or holds a fork, or some fork
mutex is locked, or a philosopher is taking a `Lock` step, then the seated
counter is zero and every philosopher has executed `philosophersSeated.Done()`. -/
theorem barrier_correctness (s : State)
    (hr : Reachable philosophers timesEachPhilosopherEats s) :
    ((∃ i g, s.threads i = some g ∧ pastBarrier g.pc) →
      s.seatedWG = 0 ∧ ∀ j, j < philosophers.length → Seated s j) ∧
    ((∃ i f, Holds s i f) →
      s.seatedWG = 0 ∧ ∀ j, j < philosophers.length → Seated s j) ∧
    ((∃ f, s.forks f = some true) →
      s.seatedWG = 0 ∧ ∀ j, j < philosophers.length → Seated s j) ∧
    (∀ i g f s', s.threads i = some g → actionAt g.philosopher g.pc = some (.lock f) →
      step philosophers timesEachPhilosopherEats s (.phil i) = .next s' →
      s.seatedWG = 0 ∧ ∀ j, j < philosophers.length → Seated s j) := by
  have hinv := inv_reachable philosophers_wellFormed hr
  have past : (∃ i g, s.threads i = some g ∧ pastBarrier g.pc) →
      s.seatedWG = 0 ∧ ∀ j, j < philosophers.length → Seated s j := by
    rintro ⟨i, g, hg, hp⟩
    have hz := hinv.barrier i g hg hp
    exact ⟨hz, seated_of_zero hinv hz⟩
  have held : (∃ i f, Holds s i f) →
      s.seatedWG = 0 ∧ ∀ j, j < philosophers.length → Seated s j := by
    rintro ⟨i, f, g, hg, hh⟩
    exact past ⟨i, g, hg, pastBarrier_of_holdsFork hh⟩
  refine ⟨past, held, ?_, ?_⟩
  · rintro ⟨f, hf⟩
    obtain ⟨i, hi⟩ := (hinv.forkLocked f).mp hf
    exact held ⟨i, f, hi⟩
  · intro i g f s' hg ha _
    exact past ⟨i, g, hg, pastBarrier_of_lock ha⟩

/-- C5 in the state where philosophers 1 to 4 hold forks 0 to 3: fork 0 is
locked, so the seated counter is zero and everybody is seated. -/
theorem barrier_correctness_witness :
    (stateAfter contended).seatedWG = 0 ∧
      ∀ j, j < philosophers.length → Seated (stateAfter contended) j :=
  (barrier_correctness (stateAfter contended) (reachable_stateAfter contended)).2.2.1
    ⟨0, by decide⟩

/-! ## C6: order of a round -/

/-- C6 as stated fails.  In a round of philosopher `P1` the two `Unlock`s do
not come before the `thinkTime` sleep, and the program reaches a state in which
`P1` is about to sleep `thinkTime` while forks 0 and 1 are both locked and
held by it. -/
theorem unlocks_before_think_fails :
    ¬ UnlocksBeforeThink ⟨"P1", 0, 1⟩
        (traceFrom timesEachPhilosopherEats ⟨"P1", 0, 1⟩ 6 (.lockFirst 3)) ∧
    (Reachable philosophers timesEachPhilosopherEats (stateAfter oneThinking) ∧
      (stateAfter oneThinking).threads 1 = some ⟨⟨"P1", 0, 1⟩, .think 3⟩ ∧
      actionAt ⟨"P1", 0, 1⟩ (.think 3) = some (.sleep thinkTime) ∧
      (stateAfter oneThinking).forks 0 = some true ∧
      (stateAfter oneThinking).forks 1 = some true ∧
      Holds (stateAfter oneThinking) 1 0 ∧ Holds (stateAfter oneThinking) 1 1) := by
  have h1 : (stateAfter oneThinking).threads 1 = some ⟨⟨"P1", 0, 1⟩, .think 3⟩ := by decide
  exact ⟨by decide, reachable_stateAfter oneThinking, h1, rfl, by decide, by decide,
    ⟨_, h1, Or.inl rfl⟩, ⟨_, h1, Or.inr rfl⟩⟩

/-- C6, amended.  Every round of `diningProblem` is: lock the lower fork, lock
the higher fork, sleep `singleEatTime`, sleep `thinkTime`, unlock the left
fork, unlock the right fork; so the `thinkTime` sleep comes before both
`Unlock`s, and in every reachable state of the program a philosopher that is
about to sleep `thinkTime` holds both its forks, which are both locked. -/
theorem round_order :
    (∀ (p : Philosopher) (k t : Nat), traceFrom k p 6 (.lockFirst t) =
      [.lock (min p.leftFork p.rightFork), .lock (max p.leftFork p.rightFork),
        .sleep singleEatTime, .sleep thinkTime, .unlock p.leftFork, .unlock p.rightFork]) ∧
    (∀ p ∈ philosophers, ∀ k t : Nat,
      ThinkBeforeUnlocks p (traceFrom k p 6 (.lockFirst t))) ∧
    (∀ s, Reachable philosophers timesEachPhilosopherEats s →
      ∀ (i : Nat) (p : Philosopher) (t : Nat), s.threads i = some ⟨p, .think t⟩ →
        actionAt p (.think t) = some (.sleep thinkTime) ∧
        s.forks p.leftFork = some true ∧ s.forks p.rightFork = some true ∧
        Holds s i p.leftFork ∧ Holds s i p.rightFork) := by
  refine ⟨fun p k t => traceFrom_round k p t, ?_, ?_⟩
  · intro p hp k t
    rw [traceFrom_round]
    revert p
    decide
  · intro s hr i p t hg
    have hinv := inv_reachable philosophers_wellFormed hr
    exact ⟨rfl, holds_locked hinv hg (Or.inl rfl), holds_locked hinv hg (Or.inr rfl),
      ⟨_, hg, Or.inl rfl⟩, ⟨_, hg, Or.inr rfl⟩⟩

/-- C6, amended, at philosopher `P1` about to sleep `thinkTime` in its first round. -/
theorem round_order_witness :
    (stateAfter oneThinking).forks 0 = some true ∧
      (stateAfter oneThinking).forks 1 = some true ∧
      Holds (stateAfter oneThinking) 1 0 ∧ Holds (stateAfter oneThinking) 1 1 :=
  (round_order.2.2 (stateAfter oneThinking) (reachable_stateAfter oneThinking)
    1 ⟨"P1", 0, 1⟩ 3 (by decide)).2

/-! ## C7: actor lifecycle -/

theorem traceFrom_returned (k : Nat) (p : Philosopher) :
    ∀ n, traceFrom k p n .returned = []
  | 0 => rfl
  | _ + 1 => rfl

/-- C7. Actor lifecycle.  With `timesEachPhilosopherEats = 3`, the statements
of `diningProblem` are, for every philosopher and with any fuel of at least 24:
`philosophersSeated.Done()`, `philosophersSeated.Wait()`, three rounds of
two `Lock`s, two sleeps and two `Unlock`s, then `orderMutex.Lock()`, one
`append` of the philosopher's own name, `orderMutex.Unlock()` and last the
deferred `philosophersEatingWG.Done()`, after which the goroutine has returned. -/
theorem actor_lifecycle (p : Philosopher) (extra : Nat) :
    traceFrom timesEachPhilosopherEats p (extra + 24) .seatedDone =
      [.seatedDone, .seatedWait] ++
      (List.replicate timesEachPhilosopherEats
        [.lock (min p.leftFork p.rightFork), .lock (max p.leftFork p.rightFork),
          .sleep singleEatTime, .sleep thinkTime,
          .unlock p.leftFork, .unlock p.rightFork]).flatten ++
      [.orderLock, .append p.name, .orderUnlock, .eatingDone] ∧
    pcAfter timesEachPhilosopherEats 24 .seatedDone = .returned ∧
    List.countP Action.isLock
      [.lock (min p.leftFork p.rightFork), .lock (max p.leftFork p.rightFork),
        .sleep singleEatTime, .sleep thinkTime, .unlock p.leftFork, .unlock p.rightFork] = 2 ∧
    List.countP Action.isUnlock
      [.lock (min p.leftFork p.rightFork), .lock (max p.leftFork p.rightFork),
        .sleep singleEatTime, .sleep thinkTime, .unlock p.leftFork, .unlock p.rightFork] = 2 ∧
    List.countP Action.isAppend
      (traceFrom timesEachPhilosopherEats p (extra + 24) .seatedDone) = 1 := by
  have htrace : traceFrom timesEachPhilosopherEats p (extra + 24) .seatedDone =
      [.seatedDone, .seatedWait] ++
      (List.replicate timesEachPhilosopherEats
        [.lock (min p.leftFork p.rightFork), .lock (max p.leftFork p.rightFork),
          .sleep singleEatTime, .sleep thinkTime,
          .unlock p.leftFork, .unlock p.rightFork]).flatten ++
      [.orderLock, .append p.name, .orderUnlock, .eatingDone] := by
    simp only [traceFrom, actionAt, nextPC, loopEntry, timesEachPhilosopherEats,
      traceFrom_returned]
    by_cases h : p.leftFork > p.rightFork
    · simp [if_pos h, min_eq_right (le_of_lt h), max_eq_left (le_of_lt h), List.replicate,
        traceFrom_returned]
    · simp [if_neg h, min_eq_left (not_lt.mp h), max_eq_right (not_lt.mp h), List.replicate,
        traceFrom_returned]
  refine ⟨htrace, rfl, rfl, rfl, ?_⟩
  rw [htrace]
  rfl

/-! ## C8: closed resource cycle -/

/-- C8. Closed resource cycle.  In the `philosophers` table the right fork of
philosopher `i` is the left fork of philosopher `(i + 1) mod N`, and every fork
index below `N` is the left fork of exactly one philosopher, the right fork of
exactly one philosopher, and a fork of exactly two philosophers. -/
theorem closed_cycle :
    (∀ i : Fin philosophers.length,
      (philosophers.get i).rightFork =
        (philosophers.get
          ⟨(i.val + 1) % philosophers.length, Nat.mod_lt _ (by decide)⟩).leftFork) ∧
    (∀ f : Fin philosophers.length,
      philosophers.countP (fun p => p.leftFork = (f.val : Int)) = 1 ∧
      philosophers.countP (fun p => p.rightFork = (f.val : Int)) = 1 ∧
      philosophers.countP
        (fun p => p.leftFork = (f.val : Int) ∨ p.rightFork = (f.val : Int)) = 2) := by
  decide

/-! ## C9: unlock safety -/

/-- C9. Unlock safety.  In every reachable state of the program, a philosopher
about to execute `forks[leftFork].Unlock()` or `forks[rightFork].Unlock()`
finds that fork locked, holds it, and is its only holder; the `Unlock` step
succeeds; after the second `Unlock` the philosopher holds no fork; and no
thread ever hits the unlock-of-unlocked-mutex fault. -/
theorem unlock_safety (s : State)
    (hr : Reachable philosophers timesEachPhilosopherEats s)
    (i : Nat) (p : Philosopher) (t : Nat) :
    (s.threads i = some ⟨p, .unlockLeft t⟩ →
      s.forks p.leftFork = some true ∧ Holds s i p.leftFork ∧
      (∀ j, Holds s j p.leftFork → j = i) ∧
      ∃ s', step philosophers timesEachPhilosopherEats s (.phil i) = .next s' ∧
        s'.forks p.leftFork = some false ∧ s'.threads i = some ⟨p, .unlockRight t⟩) ∧
    (s.threads i = some ⟨p, .unlockRight t⟩ →
      s.forks p.rightFork = some true ∧ Holds s i p.rightFork ∧
      (∀ j, Holds s j p.rightFork → j = i) ∧
      ∃ s', step philosophers timesEachPhilosopherEats s (.phil i) = .next s' ∧
        s'.forks p.rightFork = some false ∧ ∀ f, ¬ Holds s' i f) ∧
    (∀ th, step philosophers timesEachPhilosopherEats s th ≠ .fatal .unlockOfUnlocked) := by
  have hinv := inv_reachable philosophers_wellFormed hr
  refine ⟨?_, ?_, fun th => step_not_fatal philosophers_wellFormed hinv th _⟩
  · intro hg
    have hown : Holds s i p.leftFork := ⟨_, hg, Or.inl rfl⟩
    have hl := holds_locked hinv hg (f := p.leftFork) (Or.inl rfl)
    refine ⟨hl, hown, fun j hj => hinv.forkExcl _ j i hj hown, ?_⟩
    refine ⟨advance timesEachPhilosopherEats i ⟨p, .unlockLeft t⟩
      { s with forks := Function.update s.forks p.leftFork (some false) }, ?_, ?_, ?_⟩
    · simp only [step, stepPhil, hg, actionAt, exec, hl]
    · simp [advance]
    · simp [advance, nextPC]
  · intro hg
    have hown : Holds s i p.rightFork := ⟨_, hg, rfl⟩
    have hl := holds_locked hinv hg (f := p.rightFork) rfl
    refine ⟨hl, hown, fun j hj => hinv.forkExcl _ j i hj hown, ?_⟩
    refine ⟨advance timesEachPhilosopherEats i ⟨p, .unlockRight t⟩
      { s with forks := Function.update s.forks p.rightFork (some false) }, ?_, ?_, ?_⟩
    · simp only [step, stepPhil, hg, actionAt, exec, hl]
    · simp [advance]
    · rintro f ⟨g, hg', hh⟩
      simp only [advance, Function.update_same, Option.some.injEq] at hg'
      subst hg'
      exact holdsFork_loopEntry p _ f hh

/-- C9 at philosopher `P1` about to release its right fork in its first round. -/
theorem unlock_safety_witness :
    (stateAfter oneUnlocking).forks 1 = some true ∧ Holds (stateAfter oneUnlocking) 1 1 ∧
      (∀ j, Holds (stateAfter oneUnlocking) j 1 → j = 1) ∧
      ∃ s', step philosophers timesEachPhilosopherEats (stateAfter oneUnlocking) (.phil 1) =
          .next s' ∧
        s'.forks 1 = some false ∧ ∀ f, ¬ Holds s' 1 f :=
  (unlock_safety (stateAfter oneUnlocking) (reachable_stateAfter oneUnlocking)
    1 ⟨"P1", 0, 1⟩ 3).2.1 (by decide)

/-! ## C10: fork lookup is total -/

/-- C10. Fork lookup is total.  The forks map built by `startDine` has exactly
the keys `0 .. len(philosophers) - 1`, both forks of every philosopher of the
table are among them, the key set is the same in every reachable state, both
forks of every running goroutine are keys, and no thread ever hits the
nil-mutex fault. -/
theorem fork_lookup_total :
    (∀ f : Int, (startDine philosophers).forks f ≠ none ↔
      (0 ≤ f ∧ f < (philosophers.length : Int))) ∧
    (∀ p ∈ philosophers, (startDine philosophers).forks p.leftFork = some false ∧
      (startDine philosophers).forks p.rightFork = some false) ∧
    (∀ s, Reachable philosophers timesEachPhilosopherEats s →
      (∀ f : Int, s.forks f ≠ none ↔ (0 ≤ f ∧ f < (philosophers.length : Int))) ∧
      (∀ i g, s.threads i = some g →
        s.forks g.philosopher.leftFork ≠ none ∧ s.forks g.philosopher.rightFork ≠ none) ∧
      (∀ th, step philosophers timesEachPhilosopherEats s th ≠ .fatal .nilMutex)) := by
  refine ⟨(inv_start philosophers).forkKeys, by decide, ?_⟩
  intro s hr
  have hinv := inv_reachable philosophers_wellFormed hr
  refine ⟨hinv.forkKeys, ?_, fun th => step_not_fatal philosophers_wellFormed hinv th _⟩
  intro i g hg
  obtain ⟨hl, hr⟩ := wellFormed_forks philosophers_wellFormed (hinv.args i g hg)
  exact ⟨(hinv.forkKeys _).mpr hl, (hinv.forkKeys _).mpr hr⟩

/-- C10 in the state where philosophers 1 to 4 hold forks 0 to 3: the next
step of philosopher 4, a `Lock` of fork 4, does not hit a nil mutex. -/
theorem fork_lookup_total_witness :
    step philosophers timesEachPhilosopherEats (stateAfter contended) (.phil 4) ≠
      .fatal .nilMutex :=
  (fork_lookup_total.2.2 (stateAfter contended) (reachable_stateAfter contended)).2.2 (.phil 4)

end Dining
